import Mathlib

/-! WaveRNN inference library (`library/src/wavernn.cpp`).

A shallow embedding of the layer engine of `wavernn.cpp` and theorems about it.

Modelling conventions.

* `float` values are elements of an exact commutative ring or field `α`; the
  theorems are statements of exact arithmetic.  `Eigen::exp` and `Eigen::tanh`
  are library functions and enter as parameters `exp`, `tanh : α → α`.
* `assert` is active (the library is built without `NDEBUG`), and so are the
  range and size checks of the Eigen containers, which are assertions as well.
  A failed assertion ends the call: functions return `Except Err _`.
* `int` quantities are unbounded integers: signed overflow has no defined
  result in C++, and every theorem is about executions in which none occurs.
* The header `wavernn.h` is not part of the sources embedded here.  The constants
  `SPARSE_GROUP_SIZE` and `ROW_END_MARKER`, the byte layout of the header structs,
  and `CompMatrix::read` are parameters of the definitions that use them.
-/

namespace WaveRNN

/-! ## Failure -/

/-- The two ways a call is ended: an `assert` of `wavernn.cpp` that does not hold, or a
container access outside the stored range (the container's own range assertion). -/
inductive Err where
  | assertion
  | bounds
  deriving DecidableEq, Repr

/-! ## Vectors -/

/-- Read `v(i)` with an `int` index: defined only for `0 ≤ i < v.size()`. -/
def coeff {α : Type} (v : List α) (i : Int) : Except Err α :=
  if 0 ≤ i then
    match v[i.toNat]? with
    | some a => .ok a
    | none => .error .bounds
  else .error .bounds

/-- Sum `a + b` of two vectors; Eigen requires equal sizes. -/
def vadd {α : Type} [Add α] (a b : List α) : Except Err (List α) :=
  if a.length = b.length then .ok (List.zipWith (· + ·) a b) else .error .bounds

/-- Coefficient-wise product `a.array() * b.array()`; Eigen requires equal sizes. -/
def vmul {α : Type} [Mul α] (a b : List α) : Except Err (List α) :=
  if a.length = b.length then .ok (List.zipWith (· * ·) a b) else .error .bounds

/-- `sigmoid`: `1.f / (1.f + Eigen::exp(-v.array()))`, coefficient by coefficient. -/
def sigmoid {α : Type} [Field α] (exp : α → α) (v : List α) : List α :=
  v.map fun t => 1 / (1 + exp (-t))

/-- `tanh`: `Eigen::tanh(v.array())`, coefficient by coefficient. -/
def tanh {α : Type} (tanhf : α → α) (v : List α) : List α :=
  v.map tanhf

/-! ## Compressed matrix -/

/-- `CompMatrix`: the flat weight array, the index stream, and the declared shape. -/
structure CompMatrix (α : Type) where
  weight : List α
  index : List Int
  nRows : Nat
  nCols : Nat

/-- The inner `for` loop of `CompMatrix::operator*`:
`for(int i=0; i<SPARSE_GROUP_SIZE; ++i) sum += weight(weightPos++) * x(col+i);`
with `n` the number of iterations still to run.  Returns the new `weightPos` and `sum`. -/
def CompMatrix.groupLoop {α : Type} [CommRing α] (weight x : List α) (col : Int) :
    (n i weightPos : Nat) → (sum : α) → Except Err (Nat × α)
  | 0, _, weightPos, sum => .ok (weightPos, sum)
  | n + 1, i, weightPos, sum =>
    match coeff weight weightPos, coeff x (col + i) with
    | .ok w, .ok xv => CompMatrix.groupLoop weight x col n (i + 1) (weightPos + 1) (sum + w * xv)
    | .error e, _ => .error e
    | _, .error e => .error e

/-- The `while( row < nRows )` loop of `CompMatrix::operator*`.  The first argument is the
part of the index stream from `indexPos` on, so that `index[indexPos++]` takes its head;
reading past the end of the stream is a range failure.  The `assert( row < nRows )` of the
`else` branch repeats the loop condition and cannot fail. -/
def CompMatrix.rowLoop {α : Type} [CommRing α] (SPARSE_GROUP_SIZE : Nat) (ROW_END_MARKER : Int)
    (nRows : Nat) (weight x : List α) :
    List Int → (weightPos row : Nat) → (sum : α) → (y : List α) → Except Err (List α)
  | [], _, row, _, y =>
    if row < nRows then .error .bounds else .ok y
  | idxPos :: rest, weightPos, row, sum, y =>
    if row < nRows then
      if idxPos ≠ ROW_END_MARKER then
        let col : Int := SPARSE_GROUP_SIZE * idxPos
        if ¬ (col + SPARSE_GROUP_SIZE ≤ x.length) then .error .assertion
        else if ¬ (weightPos + SPARSE_GROUP_SIZE ≤ weight.length) then .error .assertion
        else
          match CompMatrix.groupLoop weight x col SPARSE_GROUP_SIZE 0 weightPos sum with
          | .ok (weightPos', sum') =>
            CompMatrix.rowLoop SPARSE_GROUP_SIZE ROW_END_MARKER nRows weight x
              rest weightPos' row sum' y
          | .error e => .error e
      else
        CompMatrix.rowLoop SPARSE_GROUP_SIZE ROW_END_MARKER nRows weight x
          rest weightPos (row + 1) 0 (y.set row sum)
    else .ok y

/-- `CompMatrix::operator*`.  The fresh vector `y(nRows)` is shown filled with zeros; every
entry of it is assigned before the function returns. -/
def CompMatrix.mul {α : Type} [CommRing α] (SPARSE_GROUP_SIZE : Nat) (ROW_END_MARKER : Int)
    (M : CompMatrix α) (x : List α) : Except Err (List α) :=
  if M.nCols = x.length then
    CompMatrix.rowLoop SPARSE_GROUP_SIZE ROW_END_MARKER M.nRows M.weight x
      M.index 0 0 0 (List.replicate M.nRows 0)
  else .error .assertion

/-! ### The dense matrix an encoding denotes (written from the specification) -/

/-- Entry `(r, c)` of the dense matrix denoted by the part `idx` of an index stream, read
with `weightPos` weight values already used and `row` rows already closed: the `k`-th value
of a block with index `b` in row `r` contributes to entry `(r, SPARSE_GROUP_SIZE*b + k)`;
an entry no block covers is `0`. -/
def CompMatrix.denseEntry {α : Type} [CommRing α] (SPARSE_GROUP_SIZE : Nat)
    (ROW_END_MARKER : Int) (weight : List α) :
    List Int → (weightPos row : Nat) → (r c : Nat) → α
  | [], _, _, _, _ => 0
  | b :: rest, weightPos, row, r, c =>
    if b = ROW_END_MARKER then
      CompMatrix.denseEntry SPARSE_GROUP_SIZE ROW_END_MARKER weight rest weightPos (row + 1) r c
    else
      (if row = r then
        ((List.range SPARSE_GROUP_SIZE).map fun (k : Nat) =>
          if (SPARSE_GROUP_SIZE : Int) * b + (k : Int) = (c : Int)
          then weight.getD (weightPos + k) 0 else 0).sum
       else 0)
      + CompMatrix.denseEntry SPARSE_GROUP_SIZE ROW_END_MARKER weight rest
          (weightPos + SPARSE_GROUP_SIZE) row r c

/-- The dense `nRows × nCols` matrix the encoding denotes, as a list of rows. -/
def CompMatrix.toDense {α : Type} [CommRing α] (SPARSE_GROUP_SIZE : Nat) (ROW_END_MARKER : Int)
    (M : CompMatrix α) : List (List α) :=
  (List.range M.nRows).map fun r => (List.range M.nCols).map fun c =>
    CompMatrix.denseEntry SPARSE_GROUP_SIZE ROW_END_MARKER M.weight M.index 0 0 r c

/-- Dense matrix-vector product `D·x`: entry `r` is `Σ_c D[r][c] * x[c]`. -/
def denseMulVec {α : Type} [CommRing α] (D : List (List α)) (x : List α) : List α :=
  D.map fun drow => ((List.range x.length).map fun c => drow.getD c 0 * x.getD c 0).sum

/-- The format invariant of a compressed matrix for `SPARSE_GROUP_SIZE`, `ROW_END_MARKER`:
the index stream closes exactly `nRows` rows, every block index references columns inside
`[0, nCols)`, and the weight array holds `SPARSE_GROUP_SIZE` values per block index. -/
def CompMatrix.WellFormed {α : Type} (SPARSE_GROUP_SIZE : Nat) (ROW_END_MARKER : Int)
    (M : CompMatrix α) : Prop :=
  M.index.count ROW_END_MARKER = M.nRows ∧
  (∀ b ∈ M.index, b ≠ ROW_END_MARKER →
    0 ≤ b ∧ (SPARSE_GROUP_SIZE : Int) * b + SPARSE_GROUP_SIZE ≤ M.nCols) ∧
  M.weight.length = SPARSE_GROUP_SIZE * (M.index.filter (· ≠ ROW_END_MARKER)).length

instance {α : Type} (G : Nat) (E : Int) (M : CompMatrix α) :
    Decidable (CompMatrix.WellFormed G E M) := by
  unfold CompMatrix.WellFormed; infer_instance

/-- The precondition of the `while` loop at a state `(index from indexPos, weightPos, row)`:
while fewer than `nRows` rows are closed the stream has a next entry, and a block entry
passes the two assertions and lies at non-negative columns. -/
def CompMatrix.Readable (SPARSE_GROUP_SIZE : Nat) (ROW_END_MARKER : Int) (nRows wlen xlen : Nat) :
    List Int → (weightPos row : Nat) → Prop
  | [], _, row => ¬ row < nRows
  | b :: rest, weightPos, row =>
    row < nRows →
      if b ≠ ROW_END_MARKER then
        0 ≤ b ∧ (SPARSE_GROUP_SIZE : Int) * b + SPARSE_GROUP_SIZE ≤ xlen ∧
        weightPos + SPARSE_GROUP_SIZE ≤ wlen ∧
        CompMatrix.Readable SPARSE_GROUP_SIZE ROW_END_MARKER nRows wlen xlen rest
          (weightPos + SPARSE_GROUP_SIZE) row
      else
        CompMatrix.Readable SPARSE_GROUP_SIZE ROW_END_MARKER nRows wlen xlen rest
          weightPos (row + 1)

/-- A 2×8 example with group size 4 and marker −1: row 0 holds the block `[1,2,3,4]` at
columns 4..7, row 1 holds `[5,6,7,8]` at columns 0..3. -/
def exampleMatrix : CompMatrix Int :=
  { weight := [1, 2, 3, 4, 5, 6, 7, 8], index := [1, -1, 0, -1], nRows := 2, nCols := 8 }


/-- A 2×2 identity matrix encoded with group size 2 and marker −1. -/
def identity2 (α : Type) [CommRing α] : CompMatrix α :=
  { weight := [1, 0, 0, 1], index := [0, -1, 0, -1], nRows := 2, nCols := 2 }

/-! ## Linear layer

The layer classes are parametrised by the type `M` of their weight matrices and the type
`V` of their vectors: for the forward pass these are `CompMatrix α` and `List α`; the
loaders further down fill them with the stored bytes. -/

/-- `LinearLayer`: the members `mat` and `bias`. -/
structure LinearLayer (M V : Type) where
  mat : M
  bias : V

/-- `LinearLayer::apply`: `return sigmoid(mat*x);`. -/
def LinearLayer.apply {α : Type} [Field α] (SPARSE_GROUP_SIZE : Nat) (ROW_END_MARKER : Int)
    (exp : α → α) (L : LinearLayer (CompMatrix α) (List α)) (x : List α) :
    Except Err (List α) :=
  match L.mat.mul SPARSE_GROUP_SIZE ROW_END_MARKER x with
  | .ok v => .ok (sigmoid exp v)
  | .error e => .error e

/-! ## GRU layer -/

/-- `GRULayer`: six weight matrices, six bias vectors, and the declared shape. -/
structure GRULayer (M V : Type) where
  nRows : Nat
  nCols : Nat
  W_ir : M
  W_iz : M
  W_in : M
  W_hr : M
  W_hz : M
  W_hn : M
  b_ir : V
  b_iz : V
  b_in : V
  b_hr : V
  b_hz : V
  b_hn : V

/-- The argument of a gate's `sigmoid`: `W_i*x + b_i + W_h*hx + b_h`. -/
def GRULayer.gateArg {α : Type} [Field α] (SPARSE_GROUP_SIZE : Nat) (ROW_END_MARKER : Int)
    (W_i W_h : CompMatrix α) (b_i b_h x hx : List α) : Except Err (List α) := do
  let ix ← W_i.mul SPARSE_GROUP_SIZE ROW_END_MARKER x
  let s1 ← vadd ix b_i
  let hh ← W_h.mul SPARSE_GROUP_SIZE ROW_END_MARKER hx
  let s2 ← vadd s1 hh
  vadd s2 b_h

/-- `GRULayer::apply`:
```
r = sigmoid( W_ir*x + b_ir + W_hr*hx + b_hr);
z = sigmoid( W_iz*x + b_iz + W_hz*hx + b_hz);
n = tanh( W_in*x + b_in + (r.array() * (W_hn*hx + b_hn).array()).matrix());
hout = (1.f-z.array()) * n.array() + z.array() * hx.array();
```
-/
def GRULayer.apply {α : Type} [Field α] (SPARSE_GROUP_SIZE : Nat) (ROW_END_MARKER : Int)
    (exp tanhf : α → α) (L : GRULayer (CompMatrix α) (List α)) (x hx : List α) :
    Except Err (List α) := do
  let r := sigmoid exp
    (← GRULayer.gateArg SPARSE_GROUP_SIZE ROW_END_MARKER L.W_ir L.W_hr L.b_ir L.b_hr x hx)
  let z := sigmoid exp
    (← GRULayer.gateArg SPARSE_GROUP_SIZE ROW_END_MARKER L.W_iz L.W_hz L.b_iz L.b_hz x hx)
  let ix ← L.W_in.mul SPARSE_GROUP_SIZE ROW_END_MARKER x
  let s1 ← vadd ix L.b_in
  let hh ← L.W_hn.mul SPARSE_GROUP_SIZE ROW_END_MARKER hx
  let hb ← vadd hh L.b_hn
  let rh ← vmul r hb
  let n := tanh tanhf (← vadd s1 rh)
  let zn ← vmul (z.map fun t => 1 - t) n
  let zh ← vmul z hx
  vadd zn zh

/-- A GRU layer whose members agree with `nInput` and `nHidden`: the input-side matrices
are well-formed `nHidden × nInput`, the hidden-side ones well-formed `nHidden × nHidden`,
and the six bias vectors have length `nHidden`. -/
def GRULayer.WellFormed {α : Type} (SPARSE_GROUP_SIZE : Nat) (ROW_END_MARKER : Int)
    (L : GRULayer (CompMatrix α) (List α)) (nInput nHidden : Nat) : Prop :=
  (L.W_ir.WellFormed SPARSE_GROUP_SIZE ROW_END_MARKER ∧ L.W_ir.nRows = nHidden ∧
    L.W_ir.nCols = nInput) ∧
  (L.W_iz.WellFormed SPARSE_GROUP_SIZE ROW_END_MARKER ∧ L.W_iz.nRows = nHidden ∧
    L.W_iz.nCols = nInput) ∧
  (L.W_in.WellFormed SPARSE_GROUP_SIZE ROW_END_MARKER ∧ L.W_in.nRows = nHidden ∧
    L.W_in.nCols = nInput) ∧
  (L.W_hr.WellFormed SPARSE_GROUP_SIZE ROW_END_MARKER ∧ L.W_hr.nRows = nHidden ∧
    L.W_hr.nCols = nHidden) ∧
  (L.W_hz.WellFormed SPARSE_GROUP_SIZE ROW_END_MARKER ∧ L.W_hz.nRows = nHidden ∧
    L.W_hz.nCols = nHidden) ∧
  (L.W_hn.WellFormed SPARSE_GROUP_SIZE ROW_END_MARKER ∧ L.W_hn.nRows = nHidden ∧
    L.W_hn.nCols = nHidden) ∧
  L.b_ir.length = nHidden ∧ L.b_iz.length = nHidden ∧ L.b_in.length = nHidden ∧
  L.b_hr.length = nHidden ∧ L.b_hz.length = nHidden ∧ L.b_hn.length = nHidden

instance {α : Type} (G : Nat) (E : Int) (L : GRULayer (CompMatrix α) (List α)) (a b : Nat) :
    Decidable (GRULayer.WellFormed G E L a b) := by
  unfold GRULayer.WellFormed; infer_instance

/-- Entry `i` of the dense product `W·v` of the matrix a `CompMatrix` denotes. -/
def CompMatrix.dot {α : Type} [CommRing α] (SPARSE_GROUP_SIZE : Nat) (ROW_END_MARKER : Int)
    (W : CompMatrix α) (v : List α) (i : Nat) : α :=
  (denseMulVec (W.toDense SPARSE_GROUP_SIZE ROW_END_MARKER) v).getD i 0

/-- A 2-unit GRU layer on 2 inputs with identity weight matrices (group size 2, marker −1). -/
def exampleGRU : GRULayer (CompMatrix Rat) (List Rat) :=
  { nRows := 2, nCols := 2,
    W_ir := identity2 Rat, W_iz := identity2 Rat, W_in := identity2 Rat,
    W_hr := identity2 Rat, W_hz := identity2 Rat, W_hn := identity2 Rat,
    b_ir := [1, 2], b_iz := [0, 1], b_in := [3, 0],
    b_hr := [0, 0], b_hz := [1, 1], b_hn := [2, 5] }

/-! ### The GRU equations of the specification, component by component -/

/-- Component `i` of `r = sigmoid(W_ir·x + b_ir + W_hr·hx + b_hr)`. -/
def GRULayer.resetGate {α : Type} [Field α] (SPARSE_GROUP_SIZE : Nat) (ROW_END_MARKER : Int)
    (exp : α → α) (L : GRULayer (CompMatrix α) (List α)) (x hx : List α) (i : Nat) : α :=
  1 / (1 + exp (-(L.W_ir.dot SPARSE_GROUP_SIZE ROW_END_MARKER x i + L.b_ir.getD i 0
    + L.W_hr.dot SPARSE_GROUP_SIZE ROW_END_MARKER hx i + L.b_hr.getD i 0)))

/-- Component `i` of `z = sigmoid(W_iz·x + b_iz + W_hz·hx + b_hz)`. -/
def GRULayer.updateGate {α : Type} [Field α] (SPARSE_GROUP_SIZE : Nat) (ROW_END_MARKER : Int)
    (exp : α → α) (L : GRULayer (CompMatrix α) (List α)) (x hx : List α) (i : Nat) : α :=
  1 / (1 + exp (-(L.W_iz.dot SPARSE_GROUP_SIZE ROW_END_MARKER x i + L.b_iz.getD i 0
    + L.W_hz.dot SPARSE_GROUP_SIZE ROW_END_MARKER hx i + L.b_hz.getD i 0)))

/-- Component `i` of `n = tanh(W_in·x + b_in + r ⊙ (W_hn·hx + b_hn))`. -/
def GRULayer.candidate {α : Type} [Field α] (SPARSE_GROUP_SIZE : Nat) (ROW_END_MARKER : Int)
    (exp tanhf : α → α) (L : GRULayer (CompMatrix α) (List α)) (x hx : List α) (i : Nat) : α :=
  tanhf (L.W_in.dot SPARSE_GROUP_SIZE ROW_END_MARKER x i + L.b_in.getD i 0
    + L.resetGate SPARSE_GROUP_SIZE ROW_END_MARKER exp x hx i
      * (L.W_hn.dot SPARSE_GROUP_SIZE ROW_END_MARKER hx i + L.b_hn.getD i 0))

/-! ## Dense matrices and the Conv1d layer -/

/-- `Matrixf`: a dense matrix with its stored shape; `coeff i j` is meaningful for
`i < rows` and `j < cols`. -/
structure Matrixf (α : Type) where
  rows : Nat
  cols : Nat
  coeff : Nat → Nat → α

/-- `x.block(startRow, startCol, blockRows, blockCols)`; the block must lie inside `x`. -/
def Matrixf.block {α : Type} (x : Matrixf α) (startRow startCol blockRows blockCols : Nat) :
    Except Err (Matrixf α) :=
  if startRow + blockRows ≤ x.rows ∧ startCol + blockCols ≤ x.cols then
    .ok { rows := blockRows, cols := blockCols,
          coeff := fun i j => x.coeff (startRow + i) (startCol + j) }
  else .error .bounds

/-- `a.cwiseProduct(b)`; the shapes must agree. -/
def Matrixf.cwiseProduct {α : Type} [Mul α] (a b : Matrixf α) : Except Err (Matrixf α) :=
  if a.rows = b.rows ∧ a.cols = b.cols then
    .ok { rows := a.rows, cols := a.cols, coeff := fun i j => a.coeff i j * b.coeff i j }
  else .error .bounds

/-- `a.sum()`: the sum of all coefficients. -/
def Matrixf.sum {α : Type} [CommRing α] (a : Matrixf α) : α :=
  ((List.range a.rows).map fun i => ((List.range a.cols).map fun j => a.coeff i j).sum).sum

/-- The assignment `y(i, j) = v`. -/
def Matrixf.set {α : Type} (y : Matrixf α) (i j : Nat) (v : α) : Matrixf α :=
  { y with coeff := fun i' j' => if i' = i ∧ j' = j then v else y.coeff i' j' }

/-- `y.colwise() += bias`; the vector must have one entry per row of `y`. -/
def Matrixf.colwiseAdd {α : Type} [CommRing α] (y : Matrixf α) (bias : List α) :
    Except Err (Matrixf α) :=
  if bias.length = y.rows then
    .ok { y with coeff := fun i j => y.coeff i j + bias.getD i 0 }
  else .error .bounds

/-- `Conv1dLayer`: one weight block per output channel, the bias vector, the bias flag
and the declared sizes. -/
structure Conv1dLayer (M V : Type) where
  weight : List M
  bias : V
  hasBias : Bool
  inChannels : Nat
  outChannels : Nat
  nKernel : Nat

/-- The right-hand side of the assignment in the loops of `Conv1dLayer::apply`:
`( x.block(0, kernIdx, inChannels, nKernel).cwiseProduct( weight[outIdx] ) ).sum()`. -/
def Conv1dLayer.window {α : Type} [CommRing α] (L : Conv1dLayer (Matrixf α) (List α))
    (x : Matrixf α) (outIdx kernIdx : Nat) : Except Err α :=
  match x.block 0 kernIdx L.inChannels L.nKernel with
  | .error e => .error e
  | .ok blk =>
    match L.weight[outIdx]? with
    | none => .error .bounds
    | some w =>
      match blk.cwiseProduct w with
      | .error e => .error e
      | .ok p => .ok p.sum

/-- The inner loop `for(int kernIdx = 0; kernIdx < convDim; ++kernIdx )` with `n`
iterations still to run. -/
def Conv1dLayer.kernLoop {α : Type} [CommRing α] (L : Conv1dLayer (Matrixf α) (List α))
    (x : Matrixf α) (outIdx : Nat) : (n kernIdx : Nat) → Matrixf α → Except Err (Matrixf α)
  | 0, _, y => .ok y
  | n + 1, kernIdx, y =>
    match L.window x outIdx kernIdx with
    | .error e => .error e
    | .ok v => Conv1dLayer.kernLoop L x outIdx n (kernIdx + 1) (y.set outIdx kernIdx v)

/-- The outer loop `for(int outIdx = 0; outIdx<outChannels; ++outIdx)` with `n` iterations
still to run. -/
def Conv1dLayer.outLoop {α : Type} [CommRing α] (L : Conv1dLayer (Matrixf α) (List α))
    (x : Matrixf α) (convDim : Nat) : (n outIdx : Nat) → Matrixf α → Except Err (Matrixf α)
  | 0, _, y => .ok y
  | n + 1, outIdx, y =>
    match Conv1dLayer.kernLoop L x outIdx convDim 0 y with
    | .error e => .error e
    | .ok y' => Conv1dLayer.outLoop L x convDim n (outIdx + 1) y'

/-- `Conv1dLayer::apply`.  `convDim` is an `int`; a negative value is rejected by the
constructor of `y`.  The fresh matrix `y` is shown filled with zeros. -/
def Conv1dLayer.apply {α : Type} [CommRing α] (L : Conv1dLayer (Matrixf α) (List α))
    (x : Matrixf α) : Except Err (Matrixf α) :=
  let convDim : Int := (x.cols : Int) - (L.nKernel : Int) + 1
  if convDim < 0 then .error .bounds
  else
    match Conv1dLayer.outLoop L x convDim.toNat L.outChannels 0
        { rows := L.outChannels, cols := convDim.toNat, coeff := fun _ _ => 0 } with
    | .error e => .error e
    | .ok y => if L.hasBias then y.colwiseAdd L.bias else .ok y

/-- A Conv1d layer whose members agree with its declared sizes: `outChannels` weight
blocks of shape `inChannels × nKernel`, and a bias vector of length `outChannels` when the
bias flag is set. -/
def Conv1dLayer.WellFormed {α : Type} (L : Conv1dLayer (Matrixf α) (List α)) : Prop :=
  L.weight.length = L.outChannels ∧
  (∀ w ∈ L.weight, w.rows = L.inChannels ∧ w.cols = L.nKernel) ∧
  (L.hasBias = true → L.bias.length = L.outChannels)

instance {α : Type} (L : Conv1dLayer (Matrixf α) (List α)) : Decidable L.WellFormed := by
  unfold Conv1dLayer.WellFormed; infer_instance

/-- A 2-channel input of width 3: rows `[1, 2, 3]` and `[4, 5, 6]`. -/
def exampleInput : Matrixf Int :=
  { rows := 2, cols := 3, coeff := fun i j => ([[1, 2, 3], [4, 5, 6]].getD i []).getD j 0 }

/-- A Conv1d layer with 2 input channels, 1 output channel, kernel size 2, kernel block
`[[1, 0], [0, 1]]` and bias `[10]`. -/
def exampleConv (hasBias : Bool) : Conv1dLayer (Matrixf Int) (List Int) :=
  { weight := [{ rows := 2, cols := 2, coeff := fun i j => if i = j then 1 else 0 }],
    bias := [10], hasBias := hasBias, inChannels := 2, outChannels := 1, nKernel := 2 }

/-! ## Loading

A stream is the list of its bytes from the current position on.  Storage that a read
fills is a list of byte cells; a cell never written since it was allocated holds `none`.
The loaders do not end in a `return` statement; what they produce is the state of the
object they fill, which is what `TorchLayer::loadNext` hands back as `impl`. -/

/-- The bytes of the stream `fd` from the current position on. -/
abbrev FILE := List Nat

/-- The bytes of an object in memory; `none` is a byte not written since allocation. -/
abbrev Storage := List (Option Nat)

/-- Storage of `n` bytes just allocated (a local variable, or `resize` of an empty
container). -/
def Storage.fresh (n : Nat) : Storage := List.replicate n none

/-- `fread(ptr, size, count, fd)`: copies `size * count` bytes from the stream to `ptr`, or
all remaining bytes when the stream holds fewer; the number of items read, which is the
return value, is not used by any caller.  Returns the storage and the stream after it. -/
def fread (ptr : Storage) (size count : Nat) (fd : FILE) : Storage × FILE :=
  let n := min (size * count) fd.length
  ((fd.take n).map some ++ ptr.drop n, fd.drop n)

/-- `TorchLayer::Header::LayerType`, with `other` for a stored value that is none of the
five enumerators. -/
inductive LayerType where
  | Conv1d
  | Conv2d
  | BatchNorm1d
  | Linear
  | GRU
  | other
  deriving DecidableEq, Repr

/-- `TorchLayer::Header`; the `name` field is only printed and is left out. -/
structure TorchLayer.Header where
  layerType : LayerType

/-- `LinearLayer::Header`. -/
structure LinearLayer.Header where
  elSize : Int
  nRows : Nat
  nCols : Nat

/-- `GRULayer::Header`. -/
structure GRULayer.Header where
  elSize : Int
  nHidden : Nat
  nInput : Nat

/-- `Conv1dLayer::Header`. -/
structure Conv1dLayer.Header where
  elSize : Int
  useBias : Bool
  inChannels : Nat
  outChannels : Nat
  kernelSize : Nat

/-- The byte layout of the four header structs, which `wavernn.h` declares: the size of
each struct and the value of its fields as a function of the struct's bytes.  The count
fields are read as natural numbers. -/
structure Layout where
  sizeofTorchHeader : Nat
  torchHeader : Storage → TorchLayer.Header
  sizeofLinearHeader : Nat
  linearHeader : Storage → LinearLayer.Header
  sizeofGRUHeader : Nat
  gruHeader : Storage → GRULayer.Header
  sizeofConv1dHeader : Nat
  conv1dHeader : Storage → Conv1dLayer.Header

/-- The type of `CompMatrix::read(fd, elSize, nRows, nCols)`, which `wavernn.h` defines: it
fills a matrix object of type `CM` from the stream, or fails. -/
abbrev MatrixReader (CM : Type) := FILE → Int → Nat → Nat → Except Err (CM × FILE)

/-- `TorchLayer::Header header; fread(&header, sizeof(TorchLayer::Header), 1, fd);`:
the header as it stands in memory after the read, and the stream after it. -/
def TorchLayer.readHeader (lay : Layout) (fd : FILE) : TorchLayer.Header × FILE :=
  let (hbuf, fd) := fread (Storage.fresh lay.sizeofTorchHeader) lay.sizeofTorchHeader 1 fd
  (lay.torchHeader hbuf, fd)

/-- `LinearLayer::Header header; fread( &header, sizeof(LinearLayer::Header), 1, fd);`. -/
def LinearLayer.readHeader (lay : Layout) (fd : FILE) : LinearLayer.Header × FILE :=
  let (hbuf, fd) := fread (Storage.fresh lay.sizeofLinearHeader) lay.sizeofLinearHeader 1 fd
  (lay.linearHeader hbuf, fd)

/-- `GRULayer::Header header; fread( &header, sizeof(GRULayer::Header), 1, fd);`. -/
def GRULayer.readHeader (lay : Layout) (fd : FILE) : GRULayer.Header × FILE :=
  let (hbuf, fd) := fread (Storage.fresh lay.sizeofGRUHeader) lay.sizeofGRUHeader 1 fd
  (lay.gruHeader hbuf, fd)

/-- `Conv1dLayer::Header header; fread( &header, sizeof(Conv1dLayer::Header), 1, fd);`. -/
def Conv1dLayer.readHeader (lay : Layout) (fd : FILE) : Conv1dLayer.Header × FILE :=
  let (hbuf, fd) := fread (Storage.fresh lay.sizeofConv1dHeader) lay.sizeofConv1dHeader 1 fd
  (lay.conv1dHeader hbuf, fd)

/-- `LinearLayer::loadNext`. -/
def LinearLayer.loadNext {CM : Type} (lay : Layout) (read : MatrixReader CM) (fd : FILE) :
    Except Err (LinearLayer CM Storage × FILE) :=
  let (header, fd) := LinearLayer.readHeader lay fd
  if header.elSize = 4 ∨ header.elSize = 2 then
    match read fd header.elSize header.nRows header.nCols with
    | .error e => .error e
    | .ok (mat, fd) =>
      let (bias, fd) := fread (Storage.fresh (4 * header.nRows)) header.elSize.toNat
        header.nRows fd
      .ok ({ mat := mat, bias := bias }, fd)
  else .error .assertion

/-- `GRULayer::loadNext`. -/
def GRULayer.loadNext {CM : Type} (lay : Layout) (read : MatrixReader CM) (fd : FILE) :
    Except Err (GRULayer CM Storage × FILE) :=
  let (header, fd) := GRULayer.readHeader lay fd
  if header.elSize = 4 ∨ header.elSize = 2 then do
    let (W_ir, fd) ← read fd header.elSize header.nHidden header.nInput
    let (W_iz, fd) ← read fd header.elSize header.nHidden header.nInput
    let (W_in, fd) ← read fd header.elSize header.nHidden header.nInput
    let (W_hr, fd) ← read fd header.elSize header.nHidden header.nHidden
    let (W_hz, fd) ← read fd header.elSize header.nHidden header.nHidden
    let (W_hn, fd) ← read fd header.elSize header.nHidden header.nHidden
    let (b_ir, fd) := fread (Storage.fresh (4 * header.nHidden)) header.elSize.toNat
      header.nHidden fd
    let (b_iz, fd) := fread (Storage.fresh (4 * header.nHidden)) header.elSize.toNat
      header.nHidden fd
    let (b_in, fd) := fread (Storage.fresh (4 * header.nHidden)) header.elSize.toNat
      header.nHidden fd
    let (b_hr, fd) := fread (Storage.fresh (4 * header.nHidden)) header.elSize.toNat
      header.nHidden fd
    let (b_hz, fd) := fread (Storage.fresh (4 * header.nHidden)) header.elSize.toNat
      header.nHidden fd
    let (b_hn, fd) := fread (Storage.fresh (4 * header.nHidden)) header.elSize.toNat
      header.nHidden fd
    .ok ({ nRows := header.nHidden, nCols := header.nInput,
           W_ir := W_ir, W_iz := W_iz, W_in := W_in, W_hr := W_hr, W_hz := W_hz, W_hn := W_hn,
           b_ir := b_ir, b_iz := b_iz, b_in := b_in, b_hr := b_hr, b_hz := b_hz, b_hn := b_hn },
         fd)
  else .error .assertion

/-- The loop `for(int i=0; i<outChannels; ++i)` of `Conv1dLayer::loadNext` with `n`
iterations still to run: each one sizes a block to `inChannels × nKernel` floats and reads
`inChannels*nKernel` items of `elSize` bytes into it. -/
def Conv1dLayer.readWeights (elSize inChannels nKernel : Nat) :
    (n : Nat) → FILE → List Storage × FILE
  | 0, fd => ([], fd)
  | n + 1, fd =>
    let (w, fd) := fread (Storage.fresh (4 * (inChannels * nKernel))) elSize
      (inChannels * nKernel) fd
    let (ws, fd) := Conv1dLayer.readWeights elSize inChannels nKernel n fd
    (w :: ws, fd)

/-- `Conv1dLayer::loadNext`. -/
def Conv1dLayer.loadNext (lay : Layout) (fd : FILE) :
    Except Err (Conv1dLayer Storage Storage × FILE) :=
  let (header, fd) := Conv1dLayer.readHeader lay fd
  if header.elSize = 4 ∨ header.elSize = 2 then
    let (weight, fd) := Conv1dLayer.readWeights header.elSize.toNat header.inChannels
      header.kernelSize header.outChannels fd
    let (bias, fd) :=
      if header.useBias then
        fread (Storage.fresh (4 * header.outChannels)) header.elSize.toNat header.outChannels fd
      else (Storage.fresh 0, fd)
    .ok ({ weight := weight, bias := bias, hasBias := header.useBias,
           inChannels := header.inChannels, outChannels := header.outChannels,
           nKernel := header.kernelSize }, fd)
  else .error .assertion

/-- `Conv2dLayer::loadNext`: `assert(0);`. -/
def Conv2dLayer.loadNext (_fd : FILE) : Except Err (Unit × FILE) := .error .assertion

/-- `BatchNorm1dLayer::loadNext`: `assert(0);`. -/
def BatchNorm1dLayer.loadNext (_fd : FILE) : Except Err (Unit × FILE) := .error .assertion

/-- What `TorchLayer::loadNext` returns when it returns a layer: the variant and its
loaded members. -/
inductive BaseLayer (CM : Type) where
  | linear (l : LinearLayer CM Storage)
  | gru (l : GRULayer CM Storage)
  | conv1d (l : Conv1dLayer Storage Storage)
  | conv2d
  | batchNorm1d

/-- `TorchLayer::loadNext`: reads the header and switches on `header.layerType`; `none` is
the `nullptr` of the `default:` branch. -/
def TorchLayer.loadNext {CM : Type} (lay : Layout) (read : MatrixReader CM) (fd : FILE) :
    Except Err (Option (BaseLayer CM) × FILE) :=
  let (header, fd) := TorchLayer.readHeader lay fd
  match header.layerType with
  | .Linear =>
    match LinearLayer.loadNext lay read fd with
    | .ok (l, fd) => .ok (some (.linear l), fd)
    | .error e => .error e
  | .GRU =>
    match GRULayer.loadNext lay read fd with
    | .ok (l, fd) => .ok (some (.gru l), fd)
    | .error e => .error e
  | .Conv1d =>
    match Conv1dLayer.loadNext lay fd with
    | .ok (l, fd) => .ok (some (.conv1d l), fd)
    | .error e => .error e
  | .Conv2d =>
    match Conv2dLayer.loadNext fd with
    | .ok (_, fd) => .ok (some .conv2d, fd)
    | .error e => .error e
  | .BatchNorm1d =>
    match BatchNorm1dLayer.loadNext fd with
    | .ok (_, fd) => .ok (some .batchNorm1d, fd)
    | .error e => .error e
  | .other => .ok (none, fd)

/-! ### A concrete layout and matrix reader -/

/-- The 32-bit little-endian value stored at offset `off`; an unwritten byte counts as 0. -/
def le32 (s : Storage) (off : Nat) : Nat :=
  (s.getD off none).getD 0 + 256 * (s.getD (off + 1) none).getD 0
    + 65536 * (s.getD (off + 2) none).getD 0 + 16777216 * (s.getD (off + 3) none).getD 0

/-- The four bytes of `n` as a 32-bit little-endian value. -/
def bytes32 (n : Nat) : List Nat :=
  [n % 256, n / 256 % 256, n / 65536 % 256, n / 16777216 % 256]

/-- Modelled from the spec: the header layouts, which `wavernn.h` declares and the sources
do not contain.  `LayerHeader` is a fixed-length name (64 bytes here) followed by the
`layerType` tag; the sub-headers hold their fields in the order the specification lists
them, each a 32-bit little-endian value, the Conv1d bias flag a byte padded to 4.  The tag
values are 1 Conv1d, 2 Conv2d, 3 BatchNorm1d, 4 Linear, 5 GRU. -/
def refLayout : Layout where
  sizeofTorchHeader := 68
  torchHeader s :=
    { layerType :=
        match le32 s 64 with
        | 1 => .Conv1d
        | 2 => .Conv2d
        | 3 => .BatchNorm1d
        | 4 => .Linear
        | 5 => .GRU
        | _ => .other }
  sizeofLinearHeader := 12
  linearHeader s := { elSize := le32 s 0, nRows := le32 s 4, nCols := le32 s 8 }
  sizeofGRUHeader := 12
  gruHeader s := { elSize := le32 s 0, nHidden := le32 s 4, nInput := le32 s 8 }
  sizeofConv1dHeader := 20
  conv1dHeader s :=
    { elSize := le32 s 0, useBias := decide ((s.getD 4 none).getD 0 ≠ 0),
      inChannels := le32 s 8, outChannels := le32 s 12, kernelSize := le32 s 16 }

/-- Modelled from the spec: `CompMatrix::read`, which `wavernn.h` defines and the sources
do not contain, in its dense form: the weight payload of a matrix of shape
`[nRows × nCols]` at the declared element width, read into storage for that many floats. -/
def denseRead : MatrixReader Storage := fun fd elSize nRows nCols =>
  .ok (fread (Storage.fresh (4 * (nRows * nCols))) elSize.toNat (nRows * nCols) fd)

/-- A layer header of `refLayout` with the given tag value and an all-zero name. -/
def headerBytes (tag : Nat) : List Nat := List.replicate 64 0 ++ bytes32 tag

/-- The matrix `exampleMatrix` with one more row end appended to its index stream: three
row ends for two declared rows. -/
def extraRowEnd : CompMatrix Int :=
  { weight := [1, 2, 3, 4, 5, 6, 7, 8], index := [1, -1, 0, -1, -1], nRows := 2, nCols := 8 }

/-- A stream holding a Linear layer header, the sub-header `{elSize 4, nRows 1, nCols 1}`,
a one-float matrix payload and a one-float bias. -/
def linearStream : FILE :=
  headerBytes 4 ++ bytes32 4 ++ bytes32 1 ++ bytes32 1 ++ [0, 0, 128, 63] ++ [0, 0, 0, 64]

/-- A stream holding a GRU layer header, the sub-header `{elSize 2, nHidden 1, nInput 1}`,
six one-element matrix payloads and six one-element biases of 2 bytes each. -/
def gruStream : FILE :=
  headerBytes 5 ++ bytes32 2 ++ bytes32 1 ++ bytes32 1
    ++ [1, 0, 2, 0, 3, 0, 4, 0, 5, 0, 6, 0] ++ [7, 0, 8, 0, 9, 0, 10, 0, 11, 0, 12, 0]

/-- A stream holding a Conv1d layer header, the sub-header `{elSize 4, useBias, inChannels
1, outChannels 1, kernelSize 2}`, the two-float kernel and the one-float bias. -/
def conv1dStream : FILE :=
  headerBytes 1 ++ bytes32 4 ++ [1, 0, 0, 0] ++ bytes32 1 ++ bytes32 1 ++ bytes32 2
    ++ [0, 0, 128, 63, 0, 0, 0, 64] ++ [0, 0, 64, 64]

/-- The sub-header and payload of a layer whose sub-header declares element width 3. -/
def width3Body : FILE :=
  bytes32 3 ++ bytes32 1 ++ bytes32 1 ++ [0, 0, 0, 0, 0, 0, 0, 0]

/-! ## The declared variants without an implementation -/

/-- `Conv2dLayer::apply`: `assert(0);`. -/
def Conv2dLayer.apply {α : Type} (_x : Matrixf α) : Except Err (Matrixf α) := .error .assertion

/-- `BatchNorm1dLayer::apply`: `assert(0);`. -/
def BatchNorm1dLayer.apply {α : Type} (_x : List α) : Except Err (List α) := .error .assertion

/-! ## Element width 2 -/

/-- Modelled from the spec: the widening of a 16-bit floating-point value to 32 bits on
load ("all 2-byte values are widened to 4-byte on load"), which no function of the sources
performs; on bit patterns, IEEE 754 binary16 to binary32. -/
def widenHalf (h : Nat) : Nat :=
  let s := h / 32768 % 2
  let e := h / 1024 % 32
  let m := h % 1024
  if e = 0 then
    if m = 0 then s * 2147483648
    else
      let k := (List.range 10).foldl (fun k i => if 2 ^ i ≤ m then i else k) 0
      s * 2147483648 + (k + 103) * 8388608 + (m - 2 ^ k) * 2 ^ (23 - k)
  else if e = 31 then s * 2147483648 + 255 * 8388608 + m * 8192
  else s * 2147483648 + (e + 112) * 8388608 + m * 8192

/-- The four bytes of element `k` of a loaded `float` buffer. -/
def Storage.element (s : Storage) (k : Nat) : List (Option Nat) := (s.drop (4 * k)).take 4

/-- What the specification asks element `k` of a vector loaded at element width 2 to be:
the widening of payload bytes `[2k, 2k+2)`. -/
def widenedElement (payload : List Nat) (k : Nat) : List (Option Nat) :=
  (bytes32 (widenHalf (payload.getD (2 * k) 0 + 256 * payload.getD (2 * k + 1) 0))).map some

/-- A complete Conv1d stream at element width 2: sub-header `{elSize 2, useBias, inChannels
1, outChannels 1, kernelSize 2}`, the kernel `[1.0, 2.0]` as two 16-bit values (bytes
`00 3C`, `00 40`) and the bias `[0.5]` as one 16-bit value (bytes `00 38`). -/
def halfConv1d : FILE :=
  headerBytes 1 ++ bytes32 2 ++ [1, 0, 0, 0] ++ bytes32 1 ++ bytes32 1 ++ bytes32 2
    ++ [0, 60, 0, 64] ++ [0, 56]

/-- A complete Linear stream at element width 2: sub-header `{elSize 2, nRows 2, nCols 1}`,
a two-element matrix payload and the bias `[1.0, 2.0]` as two 16-bit values. -/
def halfLinear : FILE :=
  headerBytes 4 ++ bytes32 2 ++ bytes32 2 ++ bytes32 1 ++ [0, 60, 0, 60] ++ [0, 60, 0, 64]

/-! ## A kernel wider than the input -/

/-- A Conv1d layer with 2 input channels, 1 output channel, kernel size 4 (an all-ones
kernel block of shape 2 × 4) and bias `[10]`. -/
def wideKernelConv : Conv1dLayer (Matrixf Int) (List Int) :=
  { weight := [{ rows := 2, cols := 4, coeff := fun _ _ => 1 }],
    bias := [10], hasBias := true, inChannels := 2, outChannels := 1, nKernel := 4 }

/-! ## Repeated GRU steps and the all-zero layer -/

/-- A GRU layer whose six weight matrices hold only zero weights and whose six bias
vectors are zero. -/
def GRULayer.IsZero {α : Type} [Zero α] (L : GRULayer (CompMatrix α) (List α)) : Prop :=
  (∀ w ∈ L.W_ir.weight, w = 0) ∧ (∀ w ∈ L.W_iz.weight, w = 0) ∧ (∀ w ∈ L.W_in.weight, w = 0) ∧
  (∀ w ∈ L.W_hr.weight, w = 0) ∧ (∀ w ∈ L.W_hz.weight, w = 0) ∧ (∀ w ∈ L.W_hn.weight, w = 0) ∧
  (∀ b ∈ L.b_ir, b = 0) ∧ (∀ b ∈ L.b_iz, b = 0) ∧ (∀ b ∈ L.b_in, b = 0) ∧
  (∀ b ∈ L.b_hr, b = 0) ∧ (∀ b ∈ L.b_hz, b = 0) ∧ (∀ b ∈ L.b_hn, b = 0)

instance {α : Type} [Zero α] [DecidableEq α] (L : GRULayer (CompMatrix α) (List α)) :
    Decidable L.IsZero := by
  unfold GRULayer.IsZero; infer_instance

/-- A 2×2 matrix of zeros stored as two blocks of zero weights (group size 2, marker −1). -/
def zero2 (α : Type) [CommRing α] : CompMatrix α :=
  { weight := [0, 0, 0, 0], index := [0, -1, 0, -1], nRows := 2, nCols := 2 }

/-- A 2-unit GRU layer on 2 inputs with all weights and biases zero. -/
def zeroGRU : GRULayer (CompMatrix Rat) (List Rat) :=
  { nRows := 2, nCols := 2,
    W_ir := zero2 Rat, W_iz := zero2 Rat, W_in := zero2 Rat,
    W_hr := zero2 Rat, W_hz := zero2 Rat, W_hn := zero2 Rat,
    b_ir := [0, 0], b_iz := [0, 0], b_in := [0, 0],
    b_hr := [0, 0], b_hz := [0, 0], b_hn := [0, 0] }

/-! ## The assignments of the multiplication loop -/

/-- The assignments `y(row) = sum` that the `while` loop of `CompMatrix::operator*` performs,
in the order it performs them, each as the pair of the row and the value assigned: the loop
of `CompMatrix.rowLoop` with its writes recorded instead of applied. -/
def CompMatrix.rowLoopWrites {α : Type} [CommRing α] (SPARSE_GROUP_SIZE : Nat)
    (ROW_END_MARKER : Int) (nRows : Nat) (weight x : List α) :
    List Int → (weightPos row : Nat) → (sum : α) → Except Err (List (Nat × α))
  | [], _, row, _ =>
    if row < nRows then .error .bounds else .ok []
  | idxPos :: rest, weightPos, row, sum =>
    if row < nRows then
      if idxPos ≠ ROW_END_MARKER then
        let col : Int := SPARSE_GROUP_SIZE * idxPos
        if ¬ (col + SPARSE_GROUP_SIZE ≤ x.length) then .error .assertion
        else if ¬ (weightPos + SPARSE_GROUP_SIZE ≤ weight.length) then .error .assertion
        else
          match CompMatrix.groupLoop weight x col SPARSE_GROUP_SIZE 0 weightPos sum with
          | .ok (weightPos', sum') =>
            CompMatrix.rowLoopWrites SPARSE_GROUP_SIZE ROW_END_MARKER nRows weight x
              rest weightPos' row sum'
          | .error e => .error e
      else
        match CompMatrix.rowLoopWrites SPARSE_GROUP_SIZE ROW_END_MARKER nRows weight x
            rest weightPos (row + 1) 0 with
        | .ok ws => .ok ((row, sum) :: ws)
        | .error e => .error e
    else .ok []

/-- Apply recorded assignments to a vector, in order. -/
def applyWrites {α : Type} (ws : List (Nat × α)) (y : List α) : List α :=
  ws.foldl (fun acc p => acc.set p.1 p.2) y

/-- A one-row matrix with group size 4 and marker −1 whose only block index is −2. -/
def negativeBlock : CompMatrix Int :=
  { weight := [1, 2, 3, 4], index := [-2, -1], nRows := 1, nCols := 8 }

/-! ## Lemmas on sums and vector reads -/

theorem list_sum_range_eq_finset {α : Type} [AddCommMonoid α] (f : Nat → α) (n : Nat) :
    ((List.range n).map f).sum = ∑ i in Finset.range n, f i := by
  induction n with
  | zero => simp
  | succ n ih => rw [List.sum_range_succ, Finset.sum_range_succ, ih]

theorem coeff_natCast {α : Type} (v : List α) (d : α) (i : Nat) (h : i < v.length) :
    coeff v (i : Int) = .ok (v.getD i d) := by
  simp [coeff, h]

theorem coeff_of_neg {α : Type} (v : List α) (i : Int) (h : i < 0) :
    coeff v i = .error .bounds := by
  simp [coeff, not_le.mpr h]

/-- The inner loop over a block that lies inside `weight` and `x` adds the block's dot
product to `sum` and advances `weightPos` by the number of iterations. -/
theorem CompMatrix.groupLoop_eq {α : Type} [CommRing α] (weight x : List α) (c0 : Nat) :
    ∀ (n i weightPos : Nat) (sum : α), weightPos + n ≤ weight.length → c0 + i + n ≤ x.length →
      CompMatrix.groupLoop weight x (c0 : Int) n i weightPos sum =
        .ok (weightPos + n, sum + ∑ k in Finset.range n,
          weight.getD (weightPos + k) 0 * x.getD (c0 + i + k) 0) := by
  intro n
  induction n with
  | zero => intro i weightPos sum _ _; simp [CompMatrix.groupLoop]
  | succ n ih =>
    intro i weightPos sum hw hx
    have h1 : coeff weight (weightPos : Int) = .ok (weight.getD weightPos 0) :=
      coeff_natCast weight 0 weightPos (by omega)
    have h2 : coeff x ((c0 : Int) + (i : Int)) = .ok (x.getD (c0 + i) 0) := by
      have := coeff_natCast x 0 (c0 + i) (by omega)
      simpa using this
    unfold CompMatrix.groupLoop
    rw [h1, h2]
    simp only []
    rw [ih (i + 1) (weightPos + 1) _ (by omega) (by omega), Finset.sum_range_succ']
    have e1 : ∀ k, weightPos + 1 + k = weightPos + (k + 1) := fun k => by omega
    have e2 : ∀ k, c0 + (i + 1) + k = c0 + i + (k + 1) := fun k => by omega
    simp only [e1, e2, Nat.add_zero]
    rw [add_assoc, add_comm (∑ k in Finset.range n, _)]

theorem CompMatrix.denseEntry_cons_marker {α : Type} [CommRing α] (G : Nat) (E : Int)
    (weight : List α) (rest : List Int) (weightPos row r c : Nat) :
    CompMatrix.denseEntry G E weight (E :: rest) weightPos row r c =
      CompMatrix.denseEntry G E weight rest weightPos (row + 1) r c := by
  rw [CompMatrix.denseEntry, if_pos rfl]

theorem CompMatrix.denseEntry_cons_block {α : Type} [CommRing α] (G : Nat) (E : Int)
    (weight : List α) (b : Int) (rest : List Int) (weightPos row r c : Nat) (hb : b ≠ E) :
    CompMatrix.denseEntry G E weight (b :: rest) weightPos row r c =
      (if row = r then
        ((List.range G).map fun (k : Nat) =>
          if (G : Int) * b + (k : Int) = (c : Int)
          then weight.getD (weightPos + k) 0 else 0).sum
       else 0)
      + CompMatrix.denseEntry G E weight rest (weightPos + G) row r c := by
  rw [CompMatrix.denseEntry, if_neg hb]

/-- A block only contributes to the row it is read in: rows already closed get nothing. -/
theorem CompMatrix.denseEntry_of_lt {α : Type} [CommRing α] (G : Nat) (E : Int)
    (weight : List α) :
    ∀ (idx : List Int) (weightPos row r c : Nat), r < row →
      CompMatrix.denseEntry G E weight idx weightPos row r c = 0 := by
  intro idx
  induction idx with
  | nil => intro _ _ _ _ _; rfl
  | cons b rest ih =>
    intro weightPos row r c h
    unfold CompMatrix.denseEntry
    by_cases hb : b = E
    · rw [if_pos hb]; exact ih _ _ _ _ (by omega)
    · rw [if_neg hb, if_neg (by omega), ih _ _ _ _ h, add_zero]

/-- The dot product of a dense row holding a single block with `x` is the block's dot
product with the columns it covers. -/
theorem blockRow_dot {α : Type} [CommRing α] (G : Nat) (b : Nat) (weight x : List α)
    (weightPos : Nat) (h : G * b + G ≤ x.length) :
    ∑ c in Finset.range x.length,
        ((List.range G).map fun (k : Nat) =>
          if (G : Int) * (b : Int) + (k : Int) = (c : Int)
          then weight.getD (weightPos + k) 0 else 0).sum * x.getD c 0
      = ∑ k in Finset.range G, weight.getD (weightPos + k) 0 * x.getD (G * b + k) 0 := by
  simp only [list_sum_range_eq_finset, Finset.sum_mul]
  rw [Finset.sum_comm]
  refine Finset.sum_congr rfl fun k hk => ?_
  rw [Finset.sum_eq_single (G * b + k)]
  · rw [if_pos (by push_cast; ring)]
  · intro c _ hc
    rw [if_neg, zero_mul]
    intro h'
    apply hc
    have : ((G * b + k : Nat) : Int) = (c : Int) := by push_cast; linarith
    exact (Int.ofNat_inj.mp this).symm
  · intro hnot
    exfalso
    apply hnot
    have := Finset.mem_range.mp hk
    exact Finset.mem_range.mpr (by omega)

/-- From a readable state the `while` loop returns.  The vector it returns keeps the rows
already closed, and every later row `r` holds the sum pending for it plus the dot product
of dense row `r` with `x`. -/
theorem CompMatrix.rowLoop_spec {α : Type} [CommRing α] (G : Nat) (E : Int) (nRows : Nat)
    (weight x : List α) :
    ∀ (idx : List Int) (weightPos row : Nat) (sum : α) (y : List α),
      CompMatrix.Readable G E nRows weight.length x.length idx weightPos row →
      y.length = nRows →
      ∃ y', CompMatrix.rowLoop G E nRows weight x idx weightPos row sum y = .ok y' ∧
        y'.length = nRows ∧
        ∀ r, r < nRows → y'.getD r 0 =
          if r < row then y.getD r 0
          else (if r = row then sum else 0) +
            ∑ c in Finset.range x.length,
              CompMatrix.denseEntry G E weight idx weightPos row r c * x.getD c 0 := by
  intro idx
  induction idx with
  | nil =>
    intro weightPos row sum y hR hy
    have hrow : ¬ row < nRows := hR
    refine ⟨y, by simp [CompMatrix.rowLoop, hrow], hy, fun r hr => ?_⟩
    rw [if_pos (by omega)]
  | cons b rest ih =>
    intro weightPos row sum y hR hy
    by_cases hrow : row < nRows
    · have hR' := hR hrow
      by_cases hb : b = E
      · rw [if_neg (not_not.mpr hb)] at hR'
        obtain ⟨y', hy', hlen, hval⟩ := ih weightPos (row + 1) 0 (y.set row sum) hR'
          (by simpa using hy)
        refine ⟨y', ?_, hlen, fun r hr => ?_⟩
        · unfold CompMatrix.rowLoop
          rw [if_pos hrow, if_neg (not_not.mpr hb)]
          exact hy'
        · simp only [hb, CompMatrix.denseEntry_cons_marker]
          rw [hval r hr]
          rcases Nat.lt_trichotomy r row with h | h | h
          · rw [if_pos (by omega), if_pos h]
            simp only [List.getD_eq_getElem?_getD]
            rw [List.getElem?_set_ne (by omega)]
          · subst h
            rw [if_pos (by omega), if_neg (by omega), if_pos rfl]
            have hz : ∀ c, CompMatrix.denseEntry G E weight rest weightPos (r + 1) r c = 0 :=
              fun c => CompMatrix.denseEntry_of_lt G E weight rest weightPos (r + 1) r c
                (by omega)
            simp only [hz, zero_mul, Finset.sum_const_zero, add_zero]
            simp only [List.getD_eq_getElem?_getD]
            rw [List.getElem?_set_self (by omega)]
            rfl
          · have h1 : ¬ r < row + 1 := by omega
            have h2 : ¬ r < row := by omega
            have h3 : r ≠ row := by omega
            simp only [if_neg h1, if_neg h2, if_neg h3, ite_self]
      · rw [if_pos hb] at hR'
        obtain ⟨hb0, hbx, hbw, hrest⟩ := hR'
        obtain ⟨bn, rfl⟩ := Int.eq_ofNat_of_zero_le hb0
        have hx : G * bn + G ≤ x.length := by exact_mod_cast hbx
        have hcol : ((G : Int) * (bn : Int)) = ((G * bn : Nat) : Int) := by push_cast; rfl
        have hg := CompMatrix.groupLoop_eq weight x (G * bn) G 0 weightPos sum hbw
          (by omega)
        obtain ⟨y', hy', hlen, hval⟩ := ih (weightPos + G) row
          (sum + ∑ k in Finset.range G,
            weight.getD (weightPos + k) 0 * x.getD (G * bn + 0 + k) 0) y hrest hy
        refine ⟨y', ?_, hlen, fun r hr => ?_⟩
        · unfold CompMatrix.rowLoop
          rw [if_pos hrow, if_pos hb]
          simp only []
          rw [if_neg (not_not.mpr hbx), if_neg (not_not.mpr hbw), hcol, hg]
          exact hy'
        · simp only [CompMatrix.denseEntry_cons_block G E weight _ rest weightPos row r _ hb,
            add_mul, Finset.sum_add_distrib]
          rw [hval r hr]
          by_cases h : r < row
          · rw [if_pos h, if_pos h]
          · rw [if_neg h, if_neg h]
            by_cases h1 : r = row
            · subst h1
              rw [if_pos rfl, if_pos rfl]
              simp only [if_true]
              rw [blockRow_dot G bn weight x weightPos hx]
              simp only [Nat.add_zero]
              rw [add_assoc]
            · simp only [if_neg h1, if_neg (Ne.symm h1)]
              simp
    · refine ⟨y, by simp [CompMatrix.rowLoop, hrow], hy, fun r hr => ?_⟩
      rw [if_pos (by omega)]

/-- A stream with at least the missing number of row ends, whose block entries lie inside
a vector of length `xlen` and are backed by enough weight values, is readable. -/
theorem CompMatrix.readable_of_counts (G : Nat) (E : Int) (nRows wlen xlen : Nat) :
    ∀ (idx : List Int) (weightPos row : Nat),
      (∀ b ∈ idx, b ≠ E → 0 ≤ b ∧ (G : Int) * b + G ≤ xlen) →
      weightPos + G * (idx.filter (· ≠ E)).length ≤ wlen →
      nRows ≤ row + idx.count E →
      CompMatrix.Readable G E nRows wlen xlen idx weightPos row := by
  intro idx
  induction idx with
  | nil =>
    intro weightPos row _ _ hc
    simp only [CompMatrix.Readable]
    simp at hc
    omega
  | cons b rest ih =>
    intro weightPos row hb hw hc
    unfold CompMatrix.Readable
    intro _
    by_cases h : b = E
    · rw [if_neg (not_not.mpr h)]
      subst h
      refine ih _ _ (fun c hc' => hb c (List.mem_cons_of_mem _ hc')) ?_ ?_
      · simpa using hw
      · simp only [List.count_cons_self] at hc
        omega
    · rw [if_pos h]
      have hb' := hb b (List.mem_cons_self _ _) h
      have hf : ((b :: rest).filter (· ≠ E)).length = (rest.filter (· ≠ E)).length + 1 := by
        simp [List.filter_cons, h]
      rw [hf, Nat.mul_add, Nat.mul_one] at hw
      refine ⟨hb'.1, hb'.2, by omega, ih _ _ (fun c hc' => hb c (List.mem_cons_of_mem _ hc'))
        (by omega) ?_⟩
      rw [List.count_cons_of_ne (Ne.symm h)] at hc
      exact hc

/-- A well-formed compressed matrix is readable from the initial loop state. -/
theorem CompMatrix.WellFormed.readable {α : Type} {G : Nat} {E : Int} {M : CompMatrix α}
    (hM : M.WellFormed G E) :
    CompMatrix.Readable G E M.nRows M.weight.length M.nCols M.index 0 0 := by
  obtain ⟨h1, h2, h3⟩ := hM
  exact CompMatrix.readable_of_counts G E M.nRows M.weight.length M.nCols M.index 0 0 h2
    (by omega) (by omega)

theorem denseMulVec_length {α : Type} [CommRing α] (D : List (List α)) (x : List α) :
    (denseMulVec D x).length = D.length := by
  simp [denseMulVec]

theorem CompMatrix.toDense_length {α : Type} [CommRing α] (G : Nat) (E : Int)
    (M : CompMatrix α) : (M.toDense G E).length = M.nRows := by
  simp [CompMatrix.toDense]

/-- On an input of the declared length, a compressed matrix that is readable from the
initial loop state multiplies like the dense matrix it denotes. -/
theorem CompMatrix.mul_of_readable {α : Type} [CommRing α] (G : Nat) (E : Int)
    (M : CompMatrix α) (x : List α) (hx : x.length = M.nCols)
    (hR : CompMatrix.Readable G E M.nRows M.weight.length M.nCols M.index 0 0) :
    M.mul G E x = .ok (denseMulVec (M.toDense G E) x) := by
  rw [← hx] at hR
  obtain ⟨y', hy', hlen, hval⟩ := CompMatrix.rowLoop_spec G E M.nRows M.weight x M.index 0 0 0
    (List.replicate M.nRows 0) hR (by simp)
  unfold CompMatrix.mul
  rw [if_pos hx.symm, hy']
  congr 1
  apply List.ext_getElem
  · rw [hlen, denseMulVec_length, CompMatrix.toDense_length]
  · intro r h1 h2
    have hr : r < M.nRows := by omega
    have e1 : y'[r] = y'.getD r 0 := (List.getD_eq_getElem y' 0 h1).symm
    rw [e1, hval r hr]
    simp only [Nat.not_lt_zero, if_false, ite_self, zero_add]
    simp only [denseMulVec, CompMatrix.toDense, List.getElem_map, List.getElem_range,
      list_sum_range_eq_finset]
    refine Finset.sum_congr rfl fun c hc => ?_
    have hc' : c < M.nCols := by have := Finset.mem_range.mp hc; omega
    congr 1
    simp [hc']

/-- C1.  For a compressed matrix satisfying the format invariant (the index stream closes
exactly `nRows` rows, every block index references columns inside `[0, nCols)`, the weight
array holds `SPARSE_GROUP_SIZE` values per block index) and an input `x` of length `nCols`,
`CompMatrix::operator*` returns a vector of length `nRows` equal to the dense product
`D·x`, where `D` is the dense matrix the encoding denotes. -/
theorem CompMatrix.mul_eq_dense {α : Type} [CommRing α] (SPARSE_GROUP_SIZE : Nat)
    (ROW_END_MARKER : Int) (M : CompMatrix α) (x : List α)
    (hM : M.WellFormed SPARSE_GROUP_SIZE ROW_END_MARKER) (hx : x.length = M.nCols) :
    M.mul SPARSE_GROUP_SIZE ROW_END_MARKER x =
        .ok (denseMulVec (M.toDense SPARSE_GROUP_SIZE ROW_END_MARKER) x) ∧
      (denseMulVec (M.toDense SPARSE_GROUP_SIZE ROW_END_MARKER) x).length = M.nRows ∧
      (∀ r, r < M.nRows → (M.toDense SPARSE_GROUP_SIZE ROW_END_MARKER)[r]?.map List.length
        = some M.nCols) :=
  ⟨CompMatrix.mul_of_readable SPARSE_GROUP_SIZE ROW_END_MARKER M x hx hM.readable,
    by rw [denseMulVec_length, CompMatrix.toDense_length],
    fun r hr => by simp [CompMatrix.toDense, hr]⟩

theorem CompMatrix.mul_eq_dense_witness :
    exampleMatrix.WellFormed 4 (-1) ∧
      exampleMatrix.mul 4 (-1) [1, 1, 1, 1, 2, 2, 2, 2] = .ok [20, 26] :=
  ⟨by decide, (CompMatrix.mul_eq_dense 4 (-1) exampleMatrix [1, 1, 1, 1, 2, 2, 2, 2]
    (by decide) (by decide)).1.trans (by rfl)⟩

/-! ## Vectors as tabulated functions -/

theorem getD_range_map {α : Type} [Zero α] (n : Nat) (f : Nat → α) (i : Nat) (h : i < n) :
    ((List.range n).map f).getD i 0 = f i := by
  simp [h]

theorem range_map_congr {α : Type} (n : Nat) (f g : Nat → α) (h : ∀ i, i < n → f i = g i) :
    (List.range n).map f = (List.range n).map g :=
  List.map_congr_left fun i hi => h i (List.mem_range.mp hi)

theorem zipWith_eq_range_map {α : Type} [Zero α] (f : α → α → α) (a b : List α) (n : Nat)
    (ha : a.length = n) (hb : b.length = n) :
    List.zipWith f a b = (List.range n).map fun i => f (a.getD i 0) (b.getD i 0) := by
  apply List.ext_getElem
  · simp [ha, hb]
  · intro i h1 h2
    simp only [List.length_zipWith, ha, hb, Nat.min_self] at h1
    simp [List.getD_eq_getElem, ha, hb, h1]

theorem map_eq_range_map {α : Type} [Zero α] (g : α → α) (a : List α) (n : Nat)
    (ha : a.length = n) :
    a.map g = (List.range n).map fun i => g (a.getD i 0) := by
  apply List.ext_getElem
  · simp [ha]
  · intro i h1 h2
    simp only [List.length_map, ha] at h1
    simp [List.getD_eq_getElem, ha, h1]

theorem vadd_eq {α : Type} [Field α] (a b : List α) (n : Nat) (ha : a.length = n)
    (hb : b.length = n) :
    vadd a b = .ok ((List.range n).map fun i => a.getD i 0 + b.getD i 0) := by
  rw [vadd, if_pos (by rw [ha, hb]), zipWith_eq_range_map _ a b n ha hb]

theorem vmul_eq {α : Type} [Field α] (a b : List α) (n : Nat) (ha : a.length = n)
    (hb : b.length = n) :
    vmul a b = .ok ((List.range n).map fun i => a.getD i 0 * b.getD i 0) := by
  rw [vmul, if_pos (by rw [ha, hb]), zipWith_eq_range_map _ a b n ha hb]

theorem length_range_map {α : Type} (n : Nat) (f : Nat → α) :
    ((List.range n).map f).length = n := by simp

/-! ## GRU layer: the update equations -/

/-- The argument of a gate's sigmoid, component by component. -/
theorem GRULayer.gateArg_eq {α : Type} [Field α] (G : Nat) (E : Int)
    (W_i W_h : CompMatrix α) (b_i b_h x hx : List α) (n : Nat)
    (hWi : W_i.WellFormed G E) (hWh : W_h.WellFormed G E)
    (hlx : x.length = W_i.nCols) (hlh : hx.length = W_h.nCols)
    (hri : W_i.nRows = n) (hrh : W_h.nRows = n) (hbi : b_i.length = n) (hbh : b_h.length = n) :
    GRULayer.gateArg G E W_i W_h b_i b_h x hx =
      .ok ((List.range n).map fun i =>
        W_i.dot G E x i + b_i.getD i 0 + W_h.dot G E hx i + b_h.getD i 0) := by
  have l1 : (denseMulVec (W_i.toDense G E) x).length = n := by
    rw [denseMulVec_length, CompMatrix.toDense_length, hri]
  have l2 : (denseMulVec (W_h.toDense G E) hx).length = n := by
    rw [denseMulVec_length, CompMatrix.toDense_length, hrh]
  unfold GRULayer.gateArg
  rw [CompMatrix.mul_of_readable G E W_i x hlx hWi.readable,
    CompMatrix.mul_of_readable G E W_h hx hlh hWh.readable]
  simp only [bind, Except.bind]
  rw [vadd_eq _ _ n l1 hbi]
  simp only []
  rw [vadd_eq _ _ n (length_range_map _ _) l2]
  simp only []
  rw [vadd_eq _ _ n (length_range_map _ _) hbh]
  congr 1
  apply range_map_congr
  intro i hi
  rw [getD_range_map n _ i hi, getD_range_map n _ i hi]
  rfl

theorem sigmoid_range_map {α : Type} [Field α] (exp : α → α) (n : Nat) (f : Nat → α) :
    sigmoid exp ((List.range n).map f) = (List.range n).map fun i => 1 / (1 + exp (-(f i))) := by
  simp [sigmoid, List.map_map, Function.comp_def]

theorem tanh_range_map {α : Type} (tanhf : α → α) (n : Nat) (f : Nat → α) :
    tanh tanhf ((List.range n).map f) = (List.range n).map fun i => tanhf (f i) := by
  simp [tanh, List.map_map, Function.comp_def]

/-- For a GRU layer whose members agree with `nInput` and `nHidden` and inputs of these
lengths, `GRULayer::apply` returns, and each component of the result is given by the update
equations. -/
theorem GRULayer.gru_apply_components {α : Type} [Field α] (SPARSE_GROUP_SIZE : Nat)
    (ROW_END_MARKER : Int) (exp tanhf : α → α) (L : GRULayer (CompMatrix α) (List α))
    (x hx : List α) (nInput nHidden : Nat)
    (hL : L.WellFormed SPARSE_GROUP_SIZE ROW_END_MARKER nInput nHidden)
    (hlx : x.length = nInput) (hlh : hx.length = nHidden) :
    ∃ hout, L.apply SPARSE_GROUP_SIZE ROW_END_MARKER exp tanhf x hx = .ok hout ∧
      hout.length = nHidden ∧
      ∀ i, i < nHidden →
        hout.getD i 0 =
          (1 - L.updateGate SPARSE_GROUP_SIZE ROW_END_MARKER exp x hx i)
              * L.candidate SPARSE_GROUP_SIZE ROW_END_MARKER exp tanhf x hx i
            + L.updateGate SPARSE_GROUP_SIZE ROW_END_MARKER exp x hx i * hx.getD i 0 := by
  obtain ⟨⟨wir, rir, cir⟩, ⟨wiz, riz, ciz⟩, ⟨win, rin, cin⟩, ⟨whr, rhr, chr⟩, ⟨whz, rhz, chz⟩,
    ⟨whn, rhn, chn⟩, bir, biz, bin, bhr, bhz, bhn⟩ := hL
  have l1 : (denseMulVec (L.W_in.toDense SPARSE_GROUP_SIZE ROW_END_MARKER) x).length
      = nHidden := by rw [denseMulVec_length, CompMatrix.toDense_length, rin]
  have l2 : (denseMulVec (L.W_hn.toDense SPARSE_GROUP_SIZE ROW_END_MARKER) hx).length
      = nHidden := by rw [denseMulVec_length, CompMatrix.toDense_length, rhn]
  refine ⟨(List.range nHidden).map fun i =>
    (1 - L.updateGate SPARSE_GROUP_SIZE ROW_END_MARKER exp x hx i)
        * L.candidate SPARSE_GROUP_SIZE ROW_END_MARKER exp tanhf x hx i
      + L.updateGate SPARSE_GROUP_SIZE ROW_END_MARKER exp x hx i * hx.getD i 0, ?_,
    length_range_map _ _, fun i hi => getD_range_map nHidden _ i hi⟩
  unfold GRULayer.apply
  rw [GRULayer.gateArg_eq SPARSE_GROUP_SIZE ROW_END_MARKER L.W_ir L.W_hr L.b_ir L.b_hr x hx
      nHidden wir whr (by rw [hlx, cir]) (by rw [hlh, chr]) rir rhr bir bhr,
    GRULayer.gateArg_eq SPARSE_GROUP_SIZE ROW_END_MARKER L.W_iz L.W_hz L.b_iz L.b_hz x hx
      nHidden wiz whz (by rw [hlx, ciz]) (by rw [hlh, chz]) riz rhz biz bhz,
    CompMatrix.mul_of_readable SPARSE_GROUP_SIZE ROW_END_MARKER L.W_in x (by rw [hlx, cin])
      win.readable,
    CompMatrix.mul_of_readable SPARSE_GROUP_SIZE ROW_END_MARKER L.W_hn hx (by rw [hlh, chn])
      whn.readable]
  simp only [bind, Except.bind, sigmoid_range_map]
  rw [vadd_eq _ _ nHidden l1 bin]
  simp only []
  rw [vadd_eq _ _ nHidden l2 bhn]
  simp only []
  rw [vmul_eq _ _ nHidden (length_range_map _ _) (length_range_map _ _)]
  simp only []
  rw [vadd_eq _ _ nHidden (length_range_map _ _) (length_range_map _ _)]
  simp only [tanh_range_map, List.map_map, Function.comp_def]
  rw [vmul_eq _ _ nHidden (length_range_map _ _) (length_range_map _ _)]
  simp only []
  rw [vmul_eq _ _ nHidden (length_range_map _ _) hlh]
  simp only []
  rw [vadd_eq _ _ nHidden (length_range_map _ _) (length_range_map _ _)]
  congr 1
  apply range_map_congr
  intro i hi
  simp only [getD_range_map nHidden _ i hi]
  rfl

/-- C2.  For a GRU layer whose members agree with `nInput` and `nHidden`, an input `x` of
length `nInput` and a previous state `hx` of length `nHidden`, `GRULayer::apply` returns
`h_out` of length `nHidden` with `h_out = (1 − z) ⊙ n + z ⊙ hx`, where
`r = sigmoid(W_ir·x + b_ir + W_hr·hx + b_hr)`, `z = sigmoid(W_iz·x + b_iz + W_hz·hx + b_hz)`
and `n = tanh(W_in·x + b_in + r ⊙ (W_hn·hx + b_hn))`: the reset gate multiplies only the
hidden-side term and all six biases are added. -/
theorem GRULayer.gru_apply_eq {α : Type} [Field α] (SPARSE_GROUP_SIZE : Nat)
    (ROW_END_MARKER : Int) (exp tanhf : α → α) (L : GRULayer (CompMatrix α) (List α))
    (x hx : List α) (nInput nHidden : Nat)
    (hL : L.WellFormed SPARSE_GROUP_SIZE ROW_END_MARKER nInput nHidden)
    (hlx : x.length = nInput) (hlh : hx.length = nHidden) :
    ∃ hout, L.apply SPARSE_GROUP_SIZE ROW_END_MARKER exp tanhf x hx = .ok hout ∧
      hout.length = nHidden ∧
      ∀ i, i < nHidden →
        hout.getD i 0 =
          (1 - L.updateGate SPARSE_GROUP_SIZE ROW_END_MARKER exp x hx i)
              * L.candidate SPARSE_GROUP_SIZE ROW_END_MARKER exp tanhf x hx i
            + L.updateGate SPARSE_GROUP_SIZE ROW_END_MARKER exp x hx i * hx.getD i 0 := by
  obtain ⟨hout, hret, hlen, hcomp⟩ := GRULayer.gru_apply_components SPARSE_GROUP_SIZE
    ROW_END_MARKER exp tanhf L x hx nInput nHidden hL hlx hlh
  exact ⟨hout, hret, hlen, fun i hi => hcomp i hi⟩

theorem GRULayer.gru_apply_eq_witness :
    exampleGRU.WellFormed 2 (-1) 2 2 ∧
    ∃ hout, exampleGRU.apply 2 (-1) (fun t => t * t) (fun t => t + 1) [1, 2] [3, 4]
        = .ok hout ∧
      hout.length = 2 ∧
      ∀ i, i < 2 →
        hout.getD i 0 =
          (1 - exampleGRU.updateGate 2 (-1) (fun t => t * t) [1, 2] [3, 4] i)
              * exampleGRU.candidate 2 (-1) (fun t => t * t) (fun t => t + 1) [1, 2] [3, 4] i
            + exampleGRU.updateGate 2 (-1) (fun t => t * t) [1, 2] [3, 4] i
              * ([3, 4] : List Rat).getD i 0 :=
  ⟨by decide, GRULayer.gru_apply_eq 2 (-1) (fun t => t * t) (fun t => t + 1) exampleGRU
    [1, 2] [3, 4] 2 2 (by decide) rfl rfl⟩

/-! ## Linear layer -/

/-- C3.  For a Linear layer with a well-formed weight matrix and an input `x` of length
`nCols`, `LinearLayer::apply` returns the elementwise sigmoid of `weight·x`, of length
`nRows`.  The bias vector is not added: for every input, a layer with the same weight matrix
and any other bias vector produces the same result. -/
theorem LinearLayer.linear_apply_eq {α : Type} [Field α] (SPARSE_GROUP_SIZE : Nat)
    (ROW_END_MARKER : Int) (exp : α → α) (L : LinearLayer (CompMatrix α) (List α))
    (x : List α) :
    (L.mat.WellFormed SPARSE_GROUP_SIZE ROW_END_MARKER → x.length = L.mat.nCols →
      ∃ y, L.apply SPARSE_GROUP_SIZE ROW_END_MARKER exp x = .ok y ∧
        y = sigmoid exp (denseMulVec (L.mat.toDense SPARSE_GROUP_SIZE ROW_END_MARKER) x) ∧
        y.length = L.mat.nRows ∧
        ∀ i, i < L.mat.nRows →
          y.getD i 0 = 1 / (1 + exp (-(L.mat.dot SPARSE_GROUP_SIZE ROW_END_MARKER x i)))) ∧
    (∀ bias' : List α,
      LinearLayer.apply SPARSE_GROUP_SIZE ROW_END_MARKER exp ⟨L.mat, bias'⟩ x =
        L.apply SPARSE_GROUP_SIZE ROW_END_MARKER exp x) := by
  refine ⟨fun hM hx => ?_, fun _ => rfl⟩
  have hlen : (denseMulVec (L.mat.toDense SPARSE_GROUP_SIZE ROW_END_MARKER) x).length
      = L.mat.nRows := by rw [denseMulVec_length, CompMatrix.toDense_length]
  refine ⟨_, ?_, rfl, ?_, ?_⟩
  · unfold LinearLayer.apply
    rw [CompMatrix.mul_of_readable SPARSE_GROUP_SIZE ROW_END_MARKER L.mat x hx hM.readable]
  · simp [sigmoid, hlen]
  · intro i hi
    rw [sigmoid, map_eq_range_map _ _ _ hlen, getD_range_map _ _ i hi]
    rfl

theorem LinearLayer.linear_apply_eq_witness :
    (identity2 Rat).WellFormed 2 (-1) ∧
      (∃ y, LinearLayer.apply 2 (-1) (fun t => t * t) ⟨identity2 Rat, [0, 0]⟩ [1, 2] = .ok y ∧
        y.length = 2) ∧
      LinearLayer.apply 2 (-1) (fun t => t * t) ⟨identity2 Rat, [5, 7]⟩ [1, 2] =
        LinearLayer.apply 2 (-1) (fun t => t * t) ⟨identity2 Rat, [0, 0]⟩ [1, 2] := by
  refine ⟨by decide, ?_, ?_⟩
  · obtain ⟨y, h1, _, h3, _⟩ :=
      (LinearLayer.linear_apply_eq 2 (-1) (fun t => t * t) ⟨identity2 Rat, [0, 0]⟩ [1, 2]).1
        (by decide) rfl
    exact ⟨y, h1, h3⟩
  · exact (LinearLayer.linear_apply_eq 2 (-1) (fun t => t * t) ⟨identity2 Rat, [0, 0]⟩
      [1, 2]).2 [5, 7]

/-! ## Conv1d layer -/

/-- The product-sum of one input window against one kernel block. -/
theorem Conv1dLayer.window_eq {α : Type} [CommRing α] (L : Conv1dLayer (Matrixf α) (List α))
    (x : Matrixf α) (outIdx kernIdx : Nat) (w : Matrixf α)
    (hw : L.weight[outIdx]? = some w) (hrows : w.rows = L.inChannels)
    (hcols : w.cols = L.nKernel) (hxr : L.inChannels ≤ x.rows)
    (hxc : kernIdx + L.nKernel ≤ x.cols) :
    L.window x outIdx kernIdx =
      .ok (∑ c in Finset.range L.inChannels, ∑ k in Finset.range L.nKernel,
        x.coeff c (kernIdx + k) * w.coeff c k) := by
  unfold Conv1dLayer.window Matrixf.block
  rw [if_pos ⟨by omega, hxc⟩]
  simp only [hw]
  unfold Matrixf.cwiseProduct
  rw [if_pos ⟨hrows.symm, hcols.symm⟩]
  simp only [Matrixf.sum, list_sum_range_eq_finset, Nat.zero_add]

/-- The inner loop assigns the entries `kernIdx ≤ j < kernIdx + n` of row `outIdx`. -/
theorem Conv1dLayer.kernLoop_spec {α : Type} [CommRing α]
    (L : Conv1dLayer (Matrixf α) (List α)) (x : Matrixf α) (outIdx : Nat) (v : Nat → α) :
    ∀ (n kernIdx : Nat) (y : Matrixf α),
      (∀ j, kernIdx ≤ j → j < kernIdx + n → L.window x outIdx j = .ok (v j)) →
      ∃ y', Conv1dLayer.kernLoop L x outIdx n kernIdx y = .ok y' ∧
        y'.rows = y.rows ∧ y'.cols = y.cols ∧
        ∀ i j, y'.coeff i j =
          if i = outIdx ∧ kernIdx ≤ j ∧ j < kernIdx + n then v j else y.coeff i j := by
  intro n
  induction n with
  | zero =>
    intro kernIdx y _
    refine ⟨y, rfl, rfl, rfl, fun i j => ?_⟩
    rw [if_neg (by omega)]
  | succ n ih =>
    intro kernIdx y h
    obtain ⟨y', h1, h2, h3, h4⟩ := ih (kernIdx + 1) (y.set outIdx kernIdx (v kernIdx))
      (fun j hj1 hj2 => h j (by omega) (by omega))
    refine ⟨y', ?_, h2, h3, fun i j => ?_⟩
    · unfold Conv1dLayer.kernLoop
      rw [h kernIdx (le_refl _) (by omega)]
      exact h1
    · rw [h4 i j]
      by_cases hi : i = outIdx
      · by_cases hj : j = kernIdx
        · subst hi; subst hj
          rw [if_neg (by omega), if_pos ⟨rfl, le_refl _, by omega⟩]
          simp [Matrixf.set]
        · have e : (i = outIdx ∧ kernIdx + 1 ≤ j ∧ j < kernIdx + 1 + n) ↔
              (i = outIdx ∧ kernIdx ≤ j ∧ j < kernIdx + (n + 1)) := by
            constructor <;> rintro ⟨a, b, c⟩ <;> exact ⟨a, by omega, by omega⟩
          simp only [e, Matrixf.set, hj, and_false, if_false]
      · have e1 : ¬ (i = outIdx ∧ kernIdx + 1 ≤ j ∧ j < kernIdx + 1 + n) := fun a => hi a.1
        have e2 : ¬ (i = outIdx ∧ kernIdx ≤ j ∧ j < kernIdx + (n + 1)) := fun a => hi a.1
        simp only [if_neg e1, if_neg e2, Matrixf.set, hi, false_and, if_false]

/-- The outer loop assigns the rows `outIdx ≤ i < outIdx + n`, columns below `convDim`. -/
theorem Conv1dLayer.outLoop_spec {α : Type} [CommRing α]
    (L : Conv1dLayer (Matrixf α) (List α)) (x : Matrixf α) (convDim : Nat)
    (v : Nat → Nat → α) :
    ∀ (n outIdx : Nat) (y : Matrixf α),
      (∀ o j, outIdx ≤ o → o < outIdx + n → j < convDim → L.window x o j = .ok (v o j)) →
      ∃ y', Conv1dLayer.outLoop L x convDim n outIdx y = .ok y' ∧
        y'.rows = y.rows ∧ y'.cols = y.cols ∧
        ∀ i j, y'.coeff i j =
          if outIdx ≤ i ∧ i < outIdx + n ∧ j < convDim then v i j else y.coeff i j := by
  intro n
  induction n with
  | zero =>
    intro outIdx y _
    refine ⟨y, rfl, rfl, rfl, fun i j => ?_⟩
    rw [if_neg (by omega)]
  | succ n ih =>
    intro outIdx y h
    obtain ⟨y1, k1, k2, k3, k4⟩ := Conv1dLayer.kernLoop_spec L x outIdx (v outIdx) convDim 0 y
      (fun j _ hj => h outIdx j (le_refl _) (by omega) (by omega))
    obtain ⟨y', h1, h2, h3, h4⟩ := ih (outIdx + 1) y1
      (fun o j ho1 ho2 hj => h o j (by omega) (by omega) hj)
    refine ⟨y', ?_, h2.trans k2, h3.trans k3, fun i j => ?_⟩
    · unfold Conv1dLayer.outLoop
      rw [k1]
      exact h1
    · rw [h4 i j, k4 i j]
      by_cases hi : i = outIdx
      · subst hi
        by_cases hj : j < convDim
        · rw [if_neg (by omega), if_pos ⟨rfl, by omega, by omega⟩,
            if_pos ⟨le_refl _, by omega, hj⟩]
        · rw [if_neg (by omega), if_neg (by omega), if_neg (by omega)]
      · have e : (outIdx + 1 ≤ i ∧ i < outIdx + 1 + n ∧ j < convDim) ↔
            (outIdx ≤ i ∧ i < outIdx + (n + 1) ∧ j < convDim) := by
          constructor <;> rintro ⟨a, b, c⟩ <;> exact ⟨by omega, by omega, c⟩
        have e1 : ¬ (i = outIdx ∧ 0 ≤ j ∧ j < 0 + convDim) := fun a => hi a.1
        simp only [e, if_neg e1]

/-- On an input with `inChannels` rows and at least `nKernel` columns a well-formed Conv1d
layer returns a matrix of shape `outChannels × (width − nKernel + 1)` whose entries are the
window product-sums, with the channel's bias added when the bias flag is set. -/
theorem Conv1dLayer.conv1d_apply_spec {α : Type} [CommRing α] (L : Conv1dLayer (Matrixf α) (List α))
    (x : Matrixf α) (hL : L.WellFormed) (hxr : x.rows = L.inChannels)
    (hk : L.nKernel ≤ x.cols) :
    ∃ y, L.apply x = .ok y ∧ y.rows = L.outChannels ∧ y.cols = x.cols - L.nKernel + 1 ∧
      ∀ o w, L.weight[o]? = some w → ∀ j, j < x.cols - L.nKernel + 1 →
        y.coeff o j =
          (∑ c in Finset.range L.inChannels, ∑ k in Finset.range L.nKernel,
            x.coeff c (j + k) * w.coeff c k)
          + (if L.hasBias = true then L.bias.getD o 0 else 0) := by
  obtain ⟨hlen, hshape, hbias⟩ := hL
  have hcd : ((x.cols : Int) - (L.nKernel : Int) + 1).toNat = x.cols - L.nKernel + 1 := by
    omega
  have hnn : ¬ ((x.cols : Int) - (L.nKernel : Int) + 1 < 0) := by omega
  let d : Matrixf α := { rows := 0, cols := 0, coeff := fun _ _ => 0 }
  let v : Nat → Nat → α := fun o j =>
    ∑ c in Finset.range L.inChannels, ∑ k in Finset.range L.nKernel,
      x.coeff c (j + k) * (L.weight[o]?.getD d).coeff c k
  have hwin : ∀ o j, 0 ≤ o → o < 0 + L.outChannels → j < x.cols - L.nKernel + 1 →
      L.window x o j = .ok (v o j) := by
    intro o j _ ho hj
    have ho' : o < L.weight.length := by omega
    have hget : L.weight[o]? = some L.weight[o] := List.getElem?_eq_getElem ho'
    have hmem := hshape _ (List.getElem_mem ho')
    rw [L.window_eq x o j _ hget hmem.1 hmem.2 (by omega) (by omega)]
    simp only [v, hget, Option.getD_some]
  obtain ⟨y1, h1, h2, h3, h4⟩ := Conv1dLayer.outLoop_spec L x (x.cols - L.nKernel + 1) v
    L.outChannels 0
    { rows := L.outChannels, cols := x.cols - L.nKernel + 1, coeff := fun _ _ => 0 } hwin
  have hentry : ∀ o w, L.weight[o]? = some w → ∀ j, j < x.cols - L.nKernel + 1 →
      y1.coeff o j = ∑ c in Finset.range L.inChannels, ∑ k in Finset.range L.nKernel,
        x.coeff c (j + k) * w.coeff c k := by
    intro o w hw j hj
    have ho : o < L.weight.length := by
      by_contra hcon
      rw [List.getElem?_eq_none (by omega)] at hw
      exact Option.noConfusion hw
    rw [h4 o j, if_pos ⟨Nat.zero_le _, by omega, hj⟩]
    simp only [v, hw, Option.getD_some]
  unfold Conv1dLayer.apply
  simp only [if_neg hnn, hcd, h1]
  by_cases hb : L.hasBias = true
  · simp only [if_pos hb]
    unfold Matrixf.colwiseAdd
    rw [if_pos (by rw [hbias hb, h2])]
    refine ⟨_, rfl, h2, h3, fun o w hw j hj => ?_⟩
    simp only [hentry o w hw j hj]
  · simp only [if_neg hb, add_zero]
    exact ⟨y1, rfl, h2, h3, hentry⟩

/-- C4.  For a well-formed Conv1d layer and an input `x` of shape `[inChannels × width]`
with `kernelSize ≤ width`, every entry of the output of `Conv1dLayer::apply` is
`y[o][j] = Σ_{c < inChannels} Σ_{k < kernelSize} x[c][j+k] · weight[o][c][k]`, plus
`bias[o]` when the bias flag is set and plus nothing when it is not. -/
theorem Conv1dLayer.conv1d_apply_entries {α : Type} [CommRing α]
    (L : Conv1dLayer (Matrixf α) (List α)) (x : Matrixf α) (hL : L.WellFormed)
    (hxr : x.rows = L.inChannels) (hk : L.nKernel ≤ x.cols) :
    ∃ y, L.apply x = .ok y ∧
      ∀ o w, L.weight[o]? = some w → ∀ j, j < x.cols - L.nKernel + 1 →
        (L.hasBias = true → y.coeff o j =
          (∑ c in Finset.range L.inChannels, ∑ k in Finset.range L.nKernel,
            x.coeff c (j + k) * w.coeff c k) + L.bias.getD o 0) ∧
        (L.hasBias = false → y.coeff o j =
          ∑ c in Finset.range L.inChannels, ∑ k in Finset.range L.nKernel,
            x.coeff c (j + k) * w.coeff c k) := by
  obtain ⟨y, h1, _, _, h4⟩ := L.conv1d_apply_spec x hL hxr hk
  refine ⟨y, h1, fun o w hw j hj => ⟨fun hb => ?_, fun hb => ?_⟩⟩
  · rw [h4 o w hw j hj, if_pos hb]
  · rw [h4 o w hw j hj, if_neg (by simp [hb]), add_zero]

theorem Conv1dLayer.conv1d_apply_entries_witness :
    (exampleConv true).WellFormed ∧ exampleInput.rows = (exampleConv true).inChannels ∧
      (exampleConv true).nKernel ≤ exampleInput.cols ∧
      ∃ y, (exampleConv true).apply exampleInput = .ok y ∧ y.coeff 0 1 = 18 := by
  refine ⟨by decide, rfl, by decide, ?_⟩
  obtain ⟨y, h1, h2⟩ := Conv1dLayer.conv1d_apply_entries (exampleConv true) exampleInput
    (by decide) rfl (by decide)
  refine ⟨y, h1, ?_⟩
  rw [(h2 0 _ rfl 1 (by decide)).1 rfl]
  decide

/-- C5.  For a well-formed Conv1d layer and an input of shape `[inChannels × width]` with
`kernelSize ≤ width`, the output of `Conv1dLayer::apply` has exactly `outChannels` rows and
exactly `width − kernelSize + 1` columns; when `kernelSize = width` it has exactly one
column. -/
theorem Conv1dLayer.conv1d_apply_shape {α : Type} [CommRing α]
    (L : Conv1dLayer (Matrixf α) (List α)) (x : Matrixf α) (hL : L.WellFormed)
    (hxr : x.rows = L.inChannels) (hk : L.nKernel ≤ x.cols) :
    ∃ y, L.apply x = .ok y ∧ y.rows = L.outChannels ∧ y.cols = x.cols - L.nKernel + 1 ∧
      (L.nKernel = x.cols → y.cols = 1) := by
  obtain ⟨y, h1, h2, h3, _⟩ := L.conv1d_apply_spec x hL hxr hk
  exact ⟨y, h1, h2, h3, fun h => by rw [h3, h]; omega⟩

theorem Conv1dLayer.conv1d_apply_shape_witness :
    (exampleConv false).WellFormed ∧ exampleInput.rows = (exampleConv false).inChannels ∧
      (exampleConv false).nKernel ≤ exampleInput.cols ∧
      ∃ y, (exampleConv false).apply exampleInput = .ok y ∧ y.rows = 1 ∧ y.cols = 2 := by
  refine ⟨by decide, rfl, by decide, ?_⟩
  obtain ⟨y, h1, h2, h3, _⟩ := Conv1dLayer.conv1d_apply_shape (exampleConv false) exampleInput
    (by decide) rfl (by decide)
  exact ⟨y, h1, h2, h3⟩

/-! ## Compressed matrix: failures -/

/-- A stream with fewer row ends than rows still to close makes the loop fail. -/
theorem CompMatrix.rowLoop_fails_short {α : Type} [CommRing α] (G : Nat) (E : Int)
    (nRows : Nat) (weight x : List α) :
    ∀ (idx : List Int) (weightPos row : Nat) (sum : α) (y : List α),
      row + idx.count E < nRows →
      ∃ e, CompMatrix.rowLoop G E nRows weight x idx weightPos row sum y = .error e := by
  intro idx
  induction idx with
  | nil =>
    intro weightPos row sum y h
    simp only [List.count_nil, Nat.add_zero] at h
    exact ⟨.bounds, by simp [CompMatrix.rowLoop, h]⟩
  | cons a rest ih =>
    intro weightPos row sum y h
    by_cases ha : a = E
    · subst ha
      simp only [List.count_cons_self] at h
      simp only [CompMatrix.rowLoop, if_pos (show row < nRows by omega),
        ne_eq, not_true_eq_false, if_false]
      exact ih weightPos (row + 1) 0 (y.set row sum) (by omega)
    · rw [List.count_cons_of_ne (Ne.symm ha)] at h
      simp only [CompMatrix.rowLoop, if_pos (show row < nRows by omega), if_pos ha]
      split
      · exact ⟨_, rfl⟩
      · split
        · exact ⟨_, rfl⟩
        · split
          · exact ih _ row _ y h
          · exact ⟨_, rfl⟩

/-- Entries after the point where the loop returns are not read: appending to the index
stream does not change a returned result. -/
theorem CompMatrix.rowLoop_append {α : Type} [CommRing α] (G : Nat) (E : Int)
    (nRows : Nat) (weight x : List α) (extra : List Int) :
    ∀ (idx : List Int) (weightPos row : Nat) (sum : α) (y y' : List α),
      CompMatrix.rowLoop G E nRows weight x idx weightPos row sum y = .ok y' →
      CompMatrix.rowLoop G E nRows weight x (idx ++ extra) weightPos row sum y = .ok y' := by
  intro idx
  induction idx with
  | nil =>
    intro weightPos row sum y y' h
    by_cases hrow : row < nRows
    · simp [CompMatrix.rowLoop, hrow] at h
    · simp only [CompMatrix.rowLoop, if_neg hrow] at h
      cases extra with
      | nil => simp [CompMatrix.rowLoop, hrow, h]
      | cons c cs => simp only [List.nil_append, CompMatrix.rowLoop, if_neg hrow, h]
  | cons a rest ih =>
    intro weightPos row sum y y' h
    simp only [List.cons_append, CompMatrix.rowLoop] at h ⊢
    by_cases hrow : row < nRows
    · simp only [if_pos hrow] at h ⊢
      by_cases ha : a = E
      · simp only [ne_eq, ha, not_true_eq_false, if_false] at h ⊢
        exact ih _ _ _ _ _ h
      · simp only [if_pos ha] at h ⊢
        split at h
        · exact Except.noConfusion h
        · rename_i h1
          rw [if_neg h1]
          split at h
          · exact Except.noConfusion h
          · rename_i h2
            rw [if_neg h2]
            split at h
            · exact ih _ _ _ _ _ h
            · exact Except.noConfusion h
    · simp only [if_neg hrow] at h ⊢
      exact h

/-- C8, as the code behaves.  With fewer `ROW_END_MARKER` entries than `nRows`,
`CompMatrix::operator*` fails: the read of the index stream runs past its end.  Entries
after the `nRows`-th row end are never read: whatever follows in the index stream, also
further row ends, the returned vector is the same. -/
theorem CompMatrix.mul_row_end_count {α : Type} [CommRing α] (SPARSE_GROUP_SIZE : Nat)
    (ROW_END_MARKER : Int) (M : CompMatrix α) (x : List α) :
    (M.index.count ROW_END_MARKER < M.nRows →
      ∃ e, M.mul SPARSE_GROUP_SIZE ROW_END_MARKER x = .error e) ∧
    (∀ (extra : List Int) (y : List α),
      M.mul SPARSE_GROUP_SIZE ROW_END_MARKER x = .ok y →
      CompMatrix.mul SPARSE_GROUP_SIZE ROW_END_MARKER
        { M with index := M.index ++ extra } x = .ok y) := by
  constructor
  · intro h
    unfold CompMatrix.mul
    by_cases hx : M.nCols = x.length
    · rw [if_pos hx]
      exact CompMatrix.rowLoop_fails_short SPARSE_GROUP_SIZE ROW_END_MARKER M.nRows M.weight x
        M.index 0 0 0 _ (by omega)
    · rw [if_neg hx]
      exact ⟨_, rfl⟩
  · intro extra y h
    unfold CompMatrix.mul at h ⊢
    by_cases hx : M.nCols = x.length
    · rw [if_pos hx] at h
      simp only [if_pos hx]
      exact CompMatrix.rowLoop_append SPARSE_GROUP_SIZE ROW_END_MARKER M.nRows M.weight x extra
        M.index 0 0 0 _ y h
    · rw [if_neg hx] at h
      exact Except.noConfusion h

theorem CompMatrix.mul_row_end_count_witness :
    (∃ e, CompMatrix.mul 4 (-1)
        ({ weight := [1, 2, 3, 4, 5, 6, 7, 8], index := [1, -1, 0], nRows := 2, nCols := 8 }
          : CompMatrix Int) [1, 1, 1, 1, 2, 2, 2, 2] = .error e) ∧
      CompMatrix.mul 4 (-1) { exampleMatrix with index := exampleMatrix.index ++ [-1, 7, -1] }
        [1, 1, 1, 1, 2, 2, 2, 2] = .ok [20, 26] :=
  ⟨(CompMatrix.mul_row_end_count 4 (-1) _ _).1 (by decide),
    (CompMatrix.mul_row_end_count 4 (-1) exampleMatrix [1, 1, 1, 1, 2, 2, 2, 2]).2
      [-1, 7, -1] [20, 26] rfl⟩

/-- C8 fails as stated: an index stream with three row ends for two declared rows is
multiplied without any failure. -/
theorem CompMatrix.mul_extra_row_end_returns :
    extraRowEnd.index.count (-1) ≠ extraRowEnd.nRows ∧
      extraRowEnd.mul 4 (-1) [1, 1, 1, 1, 2, 2, 2, 2] = .ok [20, 26] :=
  ⟨by decide, rfl⟩

/-! ## Loading: the dispatcher -/

/-- C6.  `TorchLayer::loadNext` is determined by the header's `layerType` tag.  For a tag
that is none of Linear, GRU, Conv1d, Conv2d, BatchNorm1d it returns the null result, not an
error, with the stream positioned right after the header: no variant loader has run.  For
a tag Linear, GRU or Conv1d it runs that variant's loader on the rest of the stream: when
the loader returns a layer the dispatcher returns that layer as that variant, and when the
loader fails so does the dispatcher. -/
theorem TorchLayer.loadNext_by_tag {CM : Type} (lay : Layout) (read : MatrixReader CM)
    (fd : FILE) :
    ((TorchLayer.readHeader lay fd).1.layerType = .other →
      TorchLayer.loadNext lay read fd = .ok (none, (TorchLayer.readHeader lay fd).2)) ∧
    ((TorchLayer.readHeader lay fd).1.layerType = .Linear →
      (∀ l fd', LinearLayer.loadNext lay read (TorchLayer.readHeader lay fd).2 = .ok (l, fd') →
        TorchLayer.loadNext lay read fd = .ok (some (.linear l), fd')) ∧
      (∀ e, LinearLayer.loadNext lay read (TorchLayer.readHeader lay fd).2 = .error e →
        TorchLayer.loadNext lay read fd = .error e)) ∧
    ((TorchLayer.readHeader lay fd).1.layerType = .GRU →
      (∀ l fd', GRULayer.loadNext lay read (TorchLayer.readHeader lay fd).2 = .ok (l, fd') →
        TorchLayer.loadNext lay read fd = .ok (some (.gru l), fd')) ∧
      (∀ e, GRULayer.loadNext lay read (TorchLayer.readHeader lay fd).2 = .error e →
        TorchLayer.loadNext lay read fd = .error e)) ∧
    ((TorchLayer.readHeader lay fd).1.layerType = .Conv1d →
      (∀ l fd', Conv1dLayer.loadNext lay (TorchLayer.readHeader lay fd).2 = .ok (l, fd') →
        TorchLayer.loadNext lay read fd = .ok (some (.conv1d l), fd')) ∧
      (∀ e, Conv1dLayer.loadNext lay (TorchLayer.readHeader lay fd).2 = .error e →
        TorchLayer.loadNext lay read fd = .error e)) := by
  refine ⟨fun h => ?_, fun h => ⟨fun l fd' hl => ?_, fun e hl => ?_⟩,
    fun h => ⟨fun l fd' hl => ?_, fun e hl => ?_⟩,
    fun h => ⟨fun l fd' hl => ?_, fun e hl => ?_⟩⟩
  · unfold TorchLayer.loadNext
    simp only [h]
  all_goals
    unfold TorchLayer.loadNext
    simp only [h, hl]

theorem TorchLayer.loadNext_by_tag_witness :
    TorchLayer.loadNext refLayout denseRead (headerBytes 9 ++ [1, 2, 3]) = .ok (none, [1, 2, 3]) ∧
    TorchLayer.loadNext refLayout denseRead linearStream =
      .ok (some (.linear { mat := [some 0, some 0, some 128, some 63],
                           bias := [some 0, some 0, some 0, some 64] }), []) ∧
    TorchLayer.loadNext refLayout denseRead conv1dStream =
      .ok (some (.conv1d
        { weight := [[some 0, some 0, some 128, some 63, some 0, some 0, some 0, some 64]],
          bias := [some 0, some 0, some 64, some 64], hasBias := true,
          inChannels := 1, outChannels := 1, nKernel := 2 }), []) ∧
    ∃ l, TorchLayer.loadNext refLayout denseRead gruStream = .ok (some (.gru l), []) :=
  ⟨((TorchLayer.loadNext_by_tag refLayout denseRead (headerBytes 9 ++ [1, 2, 3])).1
      (by decide)).trans (by rfl),
    ((TorchLayer.loadNext_by_tag refLayout denseRead linearStream).2.1 (by decide)).1 _ _
      (by rfl),
    ((TorchLayer.loadNext_by_tag refLayout denseRead conv1dStream).2.2.2 (by decide)).1 _ _
      (by rfl),
    ⟨_, ((TorchLayer.loadNext_by_tag refLayout denseRead gruStream).2.2.1 (by decide)).1 _ _
      (by rfl)⟩⟩

/-! ## Loading: the element width -/

/-- C9.  Each of the Linear, GRU and Conv1d loaders fails, producing no layer, when the
sub-header it has read holds an element width that is neither 2 nor 4; and then
`TorchLayer::loadNext`, on a header tagged Linear, GRU or Conv1d, fails as well and
returns no layer handle. -/
theorem TorchLayer.loadNext_rejects_elSize {CM : Type} (lay : Layout) (read : MatrixReader CM)
    (fd : FILE) :
    (((LinearLayer.readHeader lay fd).1.elSize ≠ 4 ∧ (LinearLayer.readHeader lay fd).1.elSize ≠ 2)
      → LinearLayer.loadNext lay read fd = .error .assertion) ∧
    (((GRULayer.readHeader lay fd).1.elSize ≠ 4 ∧ (GRULayer.readHeader lay fd).1.elSize ≠ 2)
      → GRULayer.loadNext lay read fd = .error .assertion) ∧
    (((Conv1dLayer.readHeader lay fd).1.elSize ≠ 4 ∧ (Conv1dLayer.readHeader lay fd).1.elSize ≠ 2)
      → Conv1dLayer.loadNext lay fd = .error .assertion) ∧
    (∀ fd0 : FILE, (TorchLayer.readHeader lay fd0).2 = fd →
      (((TorchLayer.readHeader lay fd0).1.layerType = .Linear ∧
          (LinearLayer.readHeader lay fd).1.elSize ≠ 4 ∧
          (LinearLayer.readHeader lay fd).1.elSize ≠ 2) ∨
        ((TorchLayer.readHeader lay fd0).1.layerType = .GRU ∧
          (GRULayer.readHeader lay fd).1.elSize ≠ 4 ∧
          (GRULayer.readHeader lay fd).1.elSize ≠ 2) ∨
        ((TorchLayer.readHeader lay fd0).1.layerType = .Conv1d ∧
          (Conv1dLayer.readHeader lay fd).1.elSize ≠ 4 ∧
          (Conv1dLayer.readHeader lay fd).1.elSize ≠ 2)) →
      TorchLayer.loadNext lay read fd0 = .error .assertion) := by
  have hlin : ((LinearLayer.readHeader lay fd).1.elSize ≠ 4 ∧
      (LinearLayer.readHeader lay fd).1.elSize ≠ 2) →
      LinearLayer.loadNext lay read fd = .error .assertion := by
    rintro ⟨h4, h2⟩
    unfold LinearLayer.loadNext
    simp only [h4, h2, or_self, if_false]
  have hgru : ((GRULayer.readHeader lay fd).1.elSize ≠ 4 ∧
      (GRULayer.readHeader lay fd).1.elSize ≠ 2) →
      GRULayer.loadNext lay read fd = .error .assertion := by
    rintro ⟨h4, h2⟩
    unfold GRULayer.loadNext
    simp only [h4, h2, or_self, if_false]
  have hconv : ((Conv1dLayer.readHeader lay fd).1.elSize ≠ 4 ∧
      (Conv1dLayer.readHeader lay fd).1.elSize ≠ 2) →
      Conv1dLayer.loadNext lay fd = .error .assertion := by
    rintro ⟨h4, h2⟩
    unfold Conv1dLayer.loadNext
    simp only [h4, h2, or_self, if_false]
  refine ⟨hlin, hgru, hconv, fun fd0 hfd h => ?_⟩
  unfold TorchLayer.loadNext
  rcases h with ⟨ht, hw⟩ | ⟨ht, hw⟩ | ⟨ht, hw⟩
  · simp only [ht, hfd, hlin hw]
  · simp only [ht, hfd, hgru hw]
  · simp only [ht, hfd, hconv hw]

theorem TorchLayer.loadNext_rejects_elSize_witness :
    LinearLayer.loadNext refLayout denseRead width3Body = .error .assertion ∧
    GRULayer.loadNext refLayout denseRead width3Body = .error .assertion ∧
    Conv1dLayer.loadNext refLayout width3Body = .error .assertion ∧
    TorchLayer.loadNext refLayout denseRead (headerBytes 4 ++ width3Body) = .error .assertion ∧
    TorchLayer.loadNext refLayout denseRead (headerBytes 5 ++ width3Body) = .error .assertion ∧
    TorchLayer.loadNext refLayout denseRead (headerBytes 1 ++ width3Body) = .error .assertion :=
  ⟨(TorchLayer.loadNext_rejects_elSize refLayout denseRead width3Body).1 (by decide),
    (TorchLayer.loadNext_rejects_elSize refLayout denseRead width3Body).2.1 (by decide),
    (TorchLayer.loadNext_rejects_elSize refLayout denseRead width3Body).2.2.1 (by decide),
    (TorchLayer.loadNext_rejects_elSize refLayout denseRead width3Body).2.2.2 _ (by rfl)
      (Or.inl (by decide)),
    (TorchLayer.loadNext_rejects_elSize refLayout denseRead width3Body).2.2.2 _ (by rfl)
      (Or.inr (Or.inl (by decide))),
    (TorchLayer.loadNext_rejects_elSize refLayout denseRead width3Body).2.2.2 _ (by rfl)
      (Or.inr (Or.inr (by decide)))⟩

/-! ## Loading: streams that end early -/

/-- C11.  For every stream and every input, `Conv2dLayer::loadNext`, `Conv2dLayer::apply`,
`BatchNorm1dLayer::loadNext` and `BatchNorm1dLayer::apply` fail and return no value; and
`TorchLayer::loadNext` on a header tagged Conv2d or BatchNorm1d fails as well: it returns
neither a layer handle nor null. -/
theorem TorchLayer.loadNext_unimplemented_variants {α CM : Type} (lay : Layout)
    (read : MatrixReader CM) (fd : FILE) (x : Matrixf α) (v : List α) :
    Conv2dLayer.loadNext fd = .error .assertion ∧
    Conv2dLayer.apply x = .error .assertion ∧
    BatchNorm1dLayer.loadNext fd = .error .assertion ∧
    BatchNorm1dLayer.apply v = .error .assertion ∧
    (((TorchLayer.readHeader lay fd).1.layerType = .Conv2d ∨
        (TorchLayer.readHeader lay fd).1.layerType = .BatchNorm1d) →
      TorchLayer.loadNext lay read fd = .error .assertion ∧
      ∀ r, TorchLayer.loadNext lay read fd ≠ .ok r) := by
  refine ⟨rfl, rfl, rfl, rfl, fun h => ?_⟩
  have hfail : TorchLayer.loadNext lay read fd = .error .assertion := by
    unfold TorchLayer.loadNext
    rcases h with h | h
    · simp only [h, Conv2dLayer.loadNext]
    · simp only [h, BatchNorm1dLayer.loadNext]
  exact ⟨hfail, fun r hr => by rw [hfail] at hr; exact Except.noConfusion hr⟩

theorem TorchLayer.loadNext_unimplemented_variants_witness :
    TorchLayer.loadNext refLayout denseRead (headerBytes 2 ++ [1, 2, 3]) = .error .assertion ∧
    TorchLayer.loadNext refLayout denseRead (headerBytes 3 ++ [1, 2, 3]) = .error .assertion :=
  ⟨((TorchLayer.loadNext_unimplemented_variants refLayout denseRead (headerBytes 2 ++ [1, 2, 3])
      exampleInput ([] : List Int)).2.2.2.2 (Or.inl (by decide))).1,
    ((TorchLayer.loadNext_unimplemented_variants refLayout denseRead (headerBytes 3 ++ [1, 2, 3])
      exampleInput ([] : List Int)).2.2.2.2 (Or.inr (by decide))).1⟩

/-! ## Loading at element width 2 -/

/-- C12, the code at a failing input.  Loading at element width 2 copies the payload bytes
unchanged into the start of the `float` buffer.  For the kernel `[1.0, 2.0]` the loaded
block holds the bytes `00 3C 00 40` in element 0, not the widening `00 00 80 3F` of `1.0`,
and element 1 is unwritten; the loaded Conv1d bias and the loaded Linear bias are packed
the same way. -/
theorem TorchLayer.loadNext_width2_not_widened :
    TorchLayer.loadNext refLayout denseRead halfConv1d =
      .ok (some (.conv1d
        { weight := [[some 0, some 60, some 0, some 64, none, none, none, none]],
          bias := [some 0, some 56, none, none], hasBias := true,
          inChannels := 1, outChannels := 1, nKernel := 2 }), []) ∧
    widenedElement [0, 60, 0, 64] 0 = [some 0, some 0, some 128, some 63] ∧
    widenedElement [0, 60, 0, 64] 1 = [some 0, some 0, some 0, some 64] ∧
    Storage.element [some 0, some 60, some 0, some 64, none, none, none, none] 0
      ≠ widenedElement [0, 60, 0, 64] 0 ∧
    Storage.element [some 0, some 60, some 0, some 64, none, none, none, none] 1
      = [none, none, none, none] ∧
    Storage.element [some 0, some 56, none, none] 0 ≠ widenedElement [0, 56] 0 ∧
    (∃ m, TorchLayer.loadNext refLayout denseRead halfLinear =
      .ok (some (.linear
        { mat := m,
          bias := [some 0, some 60, some 0, some 64, none, none, none, none] }), [])) :=
  ⟨by rfl, by decide, by decide, by decide, by decide, by decide, ⟨_, by rfl⟩⟩

/-! ## Conv1d with a kernel wider than the input -/

/-- With no columns to fill, the loops of `Conv1dLayer::apply` leave `y` as it is. -/
theorem Conv1dLayer.outLoop_no_columns {α : Type} [CommRing α]
    (L : Conv1dLayer (Matrixf α) (List α)) (x : Matrixf α) :
    ∀ (n outIdx : Nat) (y : Matrixf α), Conv1dLayer.outLoop L x 0 n outIdx y = .ok y := by
  intro n
  induction n with
  | zero => intro _ _; rfl
  | succ n ih =>
    intro outIdx y
    unfold Conv1dLayer.outLoop
    simp only [Conv1dLayer.kernLoop]
    exact ih (outIdx + 1) y

/-- C13, as the code behaves.  `Conv1dLayer::apply` has no check of the kernel size.  When
`kernelSize ≥ width + 2` it fails, because the output matrix would get a negative number
of columns.  When `kernelSize = width + 1` it does not fail: for a layer whose bias, if
present, has length `outChannels`, it returns an output matrix with `outChannels` rows and
no columns. -/
theorem Conv1dLayer.conv1d_apply_wide_kernel {α : Type} [CommRing α]
    (L : Conv1dLayer (Matrixf α) (List α)) (x : Matrixf α) :
    (x.cols + 2 ≤ L.nKernel → L.apply x = .error .bounds) ∧
    (L.nKernel = x.cols + 1 → (L.hasBias = true → L.bias.length = L.outChannels) →
      ∃ y, L.apply x = .ok y ∧ y.rows = L.outChannels ∧ y.cols = 0) := by
  constructor
  · intro h
    have hneg : (x.cols : Int) - (L.nKernel : Int) + 1 < 0 := by omega
    unfold Conv1dLayer.apply
    simp only [if_pos hneg]
  · intro h hbias
    have hnn : ¬ ((x.cols : Int) - (L.nKernel : Int) + 1 < 0) := by omega
    have hcd : ((x.cols : Int) - (L.nKernel : Int) + 1).toNat = 0 := by omega
    unfold Conv1dLayer.apply
    simp only [if_neg hnn, hcd, Conv1dLayer.outLoop_no_columns]
    by_cases hb : L.hasBias = true
    · simp only [if_pos hb, Matrixf.colwiseAdd, if_pos (hbias hb)]
      exact ⟨_, rfl, rfl, rfl⟩
    · simp only [if_neg hb]
      exact ⟨_, rfl, rfl, rfl⟩

theorem Conv1dLayer.conv1d_apply_wide_kernel_witness :
    ({ wideKernelConv with nKernel := 5 } : Conv1dLayer (Matrixf Int) (List Int)).apply
        exampleInput = .error .bounds ∧
    ∃ y, wideKernelConv.apply exampleInput = .ok y ∧ y.rows = 1 ∧ y.cols = 0 :=
  ⟨(Conv1dLayer.conv1d_apply_wide_kernel { wideKernelConv with nKernel := 5 } exampleInput).1
      (by decide),
    (Conv1dLayer.conv1d_apply_wide_kernel wideKernelConv exampleInput).2 (by decide)
      (fun _ => by decide)⟩

/-- C13 fails as stated: a well-formed layer with `kernelSize = 4` applied to an input of
shape `[2 × 3]`, so that `kernelSize = width + 1`, returns a `1 × 0` matrix instead of
failing. -/
theorem Conv1dLayer.conv1d_apply_kernel_width_plus_one :
    wideKernelConv.WellFormed ∧ exampleInput.rows = wideKernelConv.inChannels ∧
    wideKernelConv.nKernel = exampleInput.cols + 1 ∧
    (∃ y, wideKernelConv.apply exampleInput = .ok y ∧ y.rows = 1 ∧ y.cols = 0) ∧
    ∀ e, wideKernelConv.apply exampleInput ≠ .error e := by
  have hret : ∃ y, wideKernelConv.apply exampleInput = .ok y ∧ y.rows = 1 ∧ y.cols = 0 := by
    simp only [Conv1dLayer.apply, wideKernelConv, exampleInput, Conv1dLayer.outLoop,
      Conv1dLayer.kernLoop, Matrixf.colwiseAdd]
    exact ⟨_, by rfl, rfl, rfl⟩
  refine ⟨by decide, rfl, rfl, hret, fun e he => ?_⟩
  obtain ⟨y, hy, _⟩ := hret
  rw [hy] at he
  exact Except.noConfusion he

/-! ## Length mismatches -/

/-- `CompMatrix::operator*` fails its first assertion on an input whose length is not
`nCols`. -/
theorem CompMatrix.mul_of_length_ne {α : Type} [CommRing α] (G : Nat) (E : Int)
    (M : CompMatrix α) (x : List α) (h : x.length ≠ M.nCols) :
    M.mul G E x = .error .assertion := by
  unfold CompMatrix.mul
  rw [if_neg (fun h' => h h'.symm)]

/-- The argument of a gate's sigmoid cannot be computed when `x` or `hx` has the wrong
length for its matrix. -/
theorem GRULayer.gateArg_of_length_ne {α : Type} [Field α] (G : Nat) (E : Int)
    (W_i W_h : CompMatrix α) (b_i b_h x hx : List α)
    (h : x.length ≠ W_i.nCols ∨ hx.length ≠ W_h.nCols) :
    ∃ e, GRULayer.gateArg G E W_i W_h b_i b_h x hx = .error e := by
  unfold GRULayer.gateArg
  simp only [bind, Except.bind]
  by_cases hx1 : x.length = W_i.nCols
  · have hx2 : hx.length ≠ W_h.nCols := by
      rcases h with h | h
      · exact absurd hx1 h
      · exact h
    rw [CompMatrix.mul_of_length_ne G E W_h hx hx2]
    cases W_i.mul G E x with
    | error e => exact ⟨e, rfl⟩
    | ok ix =>
      simp only []
      cases vadd ix b_i with
      | error e => exact ⟨e, rfl⟩
      | ok s1 => exact ⟨_, rfl⟩
  · rw [CompMatrix.mul_of_length_ne G E W_i x hx1]
    exact ⟨_, rfl⟩

/-- C14.  Apply fails on a length mismatch.  For a GRU layer whose matrices `W_ir` and
`W_hr` have `nInput` and `nHidden` columns, `GRULayer::apply` fails if the length of `x`
differs from `nInput` or the length of `hx` differs from `nHidden`; for a Linear layer,
`LinearLayer::apply` fails if the input length differs from `nCols`.  In each case no
output vector is returned. -/
theorem GRULayer.apply_fails_on_length_mismatch {α : Type} [Field α]
    (SPARSE_GROUP_SIZE : Nat) (ROW_END_MARKER : Int) (exp tanhf : α → α) :
    (∀ (L : GRULayer (CompMatrix α) (List α)) (x hx : List α) (nInput nHidden : Nat),
      L.W_ir.nCols = nInput → L.W_hr.nCols = nHidden →
      (x.length ≠ nInput ∨ hx.length ≠ nHidden) →
      (∃ e, L.apply SPARSE_GROUP_SIZE ROW_END_MARKER exp tanhf x hx = .error e) ∧
      ∀ hout, L.apply SPARSE_GROUP_SIZE ROW_END_MARKER exp tanhf x hx ≠ .ok hout) ∧
    (∀ (L : LinearLayer (CompMatrix α) (List α)) (x : List α),
      x.length ≠ L.mat.nCols →
      L.apply SPARSE_GROUP_SIZE ROW_END_MARKER exp x = .error .assertion ∧
      ∀ y, L.apply SPARSE_GROUP_SIZE ROW_END_MARKER exp x ≠ .ok y) := by
  constructor
  · intro L x hx nInput nHidden hi hh hne
    obtain ⟨e, he⟩ := GRULayer.gateArg_of_length_ne SPARSE_GROUP_SIZE ROW_END_MARKER
      L.W_ir L.W_hr L.b_ir L.b_hr x hx (by rw [hi, hh]; exact hne)
    have hfail : L.apply SPARSE_GROUP_SIZE ROW_END_MARKER exp tanhf x hx = .error e := by
      unfold GRULayer.apply
      simp only [bind, Except.bind, he]
    exact ⟨⟨e, hfail⟩, fun hout h => by rw [hfail] at h; exact Except.noConfusion h⟩
  · intro L x hne
    have hfail : L.apply SPARSE_GROUP_SIZE ROW_END_MARKER exp x = .error .assertion := by
      unfold LinearLayer.apply
      rw [CompMatrix.mul_of_length_ne SPARSE_GROUP_SIZE ROW_END_MARKER L.mat x hne]
    exact ⟨hfail, fun y h => by rw [hfail] at h; exact Except.noConfusion h⟩

theorem GRULayer.apply_fails_on_length_mismatch_witness :
    (∃ e, exampleGRU.apply 2 (-1) (fun t => t * t) (fun t => t + 1) [1, 2, 3] [3, 4]
      = .error e) ∧
    (∃ e, exampleGRU.apply 2 (-1) (fun t => t * t) (fun t => t + 1) [1, 2] [3]
      = .error e) ∧
    LinearLayer.apply 2 (-1) (fun t => t * t) ⟨identity2 Rat, [0, 0]⟩ [1] = .error .assertion :=
  ⟨((GRULayer.apply_fails_on_length_mismatch 2 (-1) (fun t : Rat => t * t)
      (fun t => t + 1)).1 exampleGRU [1, 2, 3] [3, 4] 2 2 rfl rfl (Or.inl (by decide))).1,
    ((GRULayer.apply_fails_on_length_mismatch 2 (-1) (fun t : Rat => t * t)
      (fun t => t + 1)).1 exampleGRU [1, 2] [3] 2 2 rfl rfl (Or.inr (by decide))).1,
    ((GRULayer.apply_fails_on_length_mismatch 2 (-1) (fun t : Rat => t * t)
      (fun t => t + 1)).2 ⟨identity2 Rat, [0, 0]⟩ [1] (by decide)).1⟩

/-! ## Ranges of the outputs

The statements of this section are about an ordered field; what they need of the library's
exponential is that its values are positive. -/

/-- For a Linear layer with a well-formed weight matrix and an input of length `nCols`,
`LinearLayer::apply` returns a vector of length `nRows` whose component `i` is the sigmoid
of component `i` of `weight·x`. -/
theorem LinearLayer.linear_apply_components {α : Type} [Field α] (G : Nat) (E : Int) (exp : α → α)
    (L : LinearLayer (CompMatrix α) (List α)) (x : List α)
    (hM : L.mat.WellFormed G E) (hx : x.length = L.mat.nCols) :
    ∃ y, L.apply G E exp x = .ok y ∧ y.length = L.mat.nRows ∧
      ∀ i, i < L.mat.nRows → y.getD i 0 = 1 / (1 + exp (-(L.mat.dot G E x i))) := by
  have hlen : (denseMulVec (L.mat.toDense G E) x).length = L.mat.nRows := by
    rw [denseMulVec_length, CompMatrix.toDense_length]
  refine ⟨sigmoid exp (denseMulVec (L.mat.toDense G E) x), ?_, ?_, ?_⟩
  · unfold LinearLayer.apply
    rw [CompMatrix.mul_of_readable G E L.mat x hx hM.readable]
  · simp [sigmoid, hlen]
  · intro i hi
    rw [sigmoid, map_eq_range_map _ _ _ hlen, getD_range_map _ _ i hi]
    rfl

theorem getD_of_all_zero {α : Type} [Zero α] (l : List α) (h : ∀ v ∈ l, v = 0) (i : Nat) :
    l.getD i 0 = 0 := by
  by_cases hi : i < l.length
  · rw [List.getD_eq_getElem l 0 hi]
    exact h _ (List.getElem_mem hi)
  · exact List.getD_eq_default l 0 (by omega)

theorem list_sum_of_all_zero {α : Type} [AddCommMonoid α] (l : List α) (h : ∀ v ∈ l, v = 0) :
    l.sum = 0 := by
  induction l with
  | nil => rfl
  | cons a l ih =>
    rw [List.sum_cons, h a (List.mem_cons_self _ _),
      ih (fun v hv => h v (List.mem_cons_of_mem _ hv)), add_zero]

/-- An encoding whose weights are all zero denotes the zero matrix. -/
theorem CompMatrix.denseEntry_of_zero_weights {α : Type} [CommRing α] (G : Nat) (E : Int)
    (weight : List α) (h : ∀ w ∈ weight, w = 0) :
    ∀ (idx : List Int) (weightPos row r c : Nat),
      CompMatrix.denseEntry G E weight idx weightPos row r c = 0 := by
  intro idx
  induction idx with
  | nil => intro _ _ _ _; rfl
  | cons b rest ih =>
    intro weightPos row r c
    by_cases hb : b = E
    · subst hb
      rw [CompMatrix.denseEntry_cons_marker]
      exact ih _ _ _ _
    · rw [CompMatrix.denseEntry_cons_block G E weight b rest weightPos row r c hb, ih, add_zero]
      by_cases hr : row = r
      · rw [if_pos hr]
        apply list_sum_of_all_zero
        intro v hv
        obtain ⟨k, _, rfl⟩ := List.mem_map.mp hv
        by_cases hc : (G : Int) * b + (k : Int) = (c : Int)
        · rw [if_pos hc]
          exact getD_of_all_zero weight h _
        · rw [if_neg hc]
      · rw [if_neg hr]

/-- The product of the zero matrix with any vector is zero. -/
theorem CompMatrix.dot_of_zero_weights {α : Type} [CommRing α] (G : Nat) (E : Int)
    (M : CompMatrix α) (h : ∀ w ∈ M.weight, w = 0) (v : List α) (i : Nat) :
    M.dot G E v i = 0 := by
  unfold CompMatrix.dot
  apply getD_of_all_zero
  intro y hy
  simp only [denseMulVec, CompMatrix.toDense, List.mem_map, List.mem_range] at hy
  obtain ⟨drow, ⟨r, _, rfl⟩, rfl⟩ := hy
  apply list_sum_of_all_zero
  intro t ht
  obtain ⟨c, _, rfl⟩ := List.mem_map.mp ht
  have hz : ((List.range M.nCols).map fun c =>
      CompMatrix.denseEntry G E M.weight M.index 0 0 r c).getD c 0 = 0 := by
    apply getD_of_all_zero
    intro u hu
    obtain ⟨c', _, rfl⟩ := List.mem_map.mp hu
    exact CompMatrix.denseEntry_of_zero_weights G E M.weight h _ _ _ _ _
  rw [hz, zero_mul]

/-- The product of any matrix with a zero vector is zero. -/
theorem CompMatrix.dot_of_zero_input {α : Type} [CommRing α] (G : Nat) (E : Int)
    (M : CompMatrix α) (v : List α) (h : ∀ t ∈ v, t = 0) (i : Nat) :
    M.dot G E v i = 0 := by
  unfold CompMatrix.dot
  apply getD_of_all_zero
  intro y hy
  simp only [denseMulVec, List.mem_map] at hy
  obtain ⟨drow, _, rfl⟩ := hy
  apply list_sum_of_all_zero
  intro t ht
  obtain ⟨c, _, rfl⟩ := List.mem_map.mp ht
  rw [getD_of_all_zero v h c, mul_zero]

/-- C17.  For a GRU layer whose six weight matrices and six bias vectors are all zero, and
for every `x` of length `nInput` and `hx` of length `nHidden`, `GRULayer::apply(x, hx)`
equals `0.5·hx` componentwise: `z = sigmoid(0) = 0.5` and `n = tanh(0) = 0`. -/
theorem GRULayer.apply_of_zero_layer {α : Type} [Field α] (SPARSE_GROUP_SIZE : Nat)
    (ROW_END_MARKER : Int) (exp tanhf : α → α) (hexp0 : exp 0 = 1) (htanh0 : tanhf 0 = 0)
    (L : GRULayer (CompMatrix α) (List α)) (x hx : List α) (nInput nHidden : Nat)
    (hL : L.WellFormed SPARSE_GROUP_SIZE ROW_END_MARKER nInput nHidden) (hzero : L.IsZero)
    (hlx : x.length = nInput) (hlh : hx.length = nHidden) :
    ∃ hout, L.apply SPARSE_GROUP_SIZE ROW_END_MARKER exp tanhf x hx = .ok hout ∧
      hout.length = nHidden ∧
      ∀ i, i < nHidden →
        L.updateGate SPARSE_GROUP_SIZE ROW_END_MARKER exp x hx i = 1 / 2 ∧
        L.candidate SPARSE_GROUP_SIZE ROW_END_MARKER exp tanhf x hx i = 0 ∧
        hout.getD i 0 = 1 / 2 * hx.getD i 0 := by
  obtain ⟨hout, hret, hlen, hcomp⟩ := GRULayer.gru_apply_components SPARSE_GROUP_SIZE
    ROW_END_MARKER exp tanhf L x hx nInput nHidden hL hlx hlh
  obtain ⟨wir, wiz, win, whr, whz, whn, bir, biz, bin, bhr, bhz, bhn⟩ := hzero
  refine ⟨hout, hret, hlen, fun i hi => ?_⟩
  have hz : L.updateGate SPARSE_GROUP_SIZE ROW_END_MARKER exp x hx i = 1 / 2 := by
    unfold GRULayer.updateGate
    rw [CompMatrix.dot_of_zero_weights _ _ _ wiz, CompMatrix.dot_of_zero_weights _ _ _ whz,
      getD_of_all_zero _ biz, getD_of_all_zero _ bhz]
    simp only [add_zero, neg_zero, hexp0]
    norm_num
  have hn : L.candidate SPARSE_GROUP_SIZE ROW_END_MARKER exp tanhf x hx i = 0 := by
    unfold GRULayer.candidate
    rw [CompMatrix.dot_of_zero_weights _ _ _ win, CompMatrix.dot_of_zero_weights _ _ _ whn,
      getD_of_all_zero _ bin, getD_of_all_zero _ bhn]
    simp only [add_zero, mul_zero, htanh0]
  refine ⟨hz, hn, ?_⟩
  rw [hcomp i hi, hz, hn, mul_zero, zero_add]

theorem GRULayer.apply_of_zero_layer_witness :
    ∃ hout, zeroGRU.apply 2 (-1) (fun t => t * t + 1) (fun t => t) [7, 9] [3, 4] = .ok hout ∧
      hout.length = 2 ∧
      ∀ i, i < 2 → hout.getD i 0 = 1 / 2 * ([3, 4] : List Rat).getD i 0 := by
  obtain ⟨hout, h1, h2, h3⟩ := GRULayer.apply_of_zero_layer 2 (-1) (fun t : Rat => t * t + 1)
    (fun t => t) (by norm_num) rfl zeroGRU [7, 9] [3, 4] 2 2 (by decide) (by decide) rfl rfl
  exact ⟨hout, h1, h2, fun i hi => (h3 i hi).2.2⟩

/-- C18.  For a Linear layer with a well-formed weight matrix of shape `nRows × nCols` and
any bias, applied to the all-zero input of length `nCols`, every component of the output
of `LinearLayer::apply` equals `0.5`; the layer with weight `[[1,0],[0,1]]` applied to
`[0,0]` gives `[0.5, 0.5]`. -/
theorem LinearLayer.apply_zero_input {α : Type} [Field α] (SPARSE_GROUP_SIZE : Nat)
    (ROW_END_MARKER : Int) (exp : α → α) (hexp0 : exp 0 = 1) :
    (∀ L : LinearLayer (CompMatrix α) (List α),
      L.mat.WellFormed SPARSE_GROUP_SIZE ROW_END_MARKER →
      ∃ y, L.apply SPARSE_GROUP_SIZE ROW_END_MARKER exp (List.replicate L.mat.nCols 0) = .ok y ∧
        y.length = L.mat.nRows ∧ ∀ i, i < L.mat.nRows → y.getD i 0 = 1 / 2) ∧
    (∀ bias : List α,
      LinearLayer.apply 2 (-1) exp ⟨identity2 α, bias⟩ [0, 0] = .ok [1 / 2, 1 / 2]) := by
  constructor
  · intro L hM
    obtain ⟨y, hret, hlen, hcomp⟩ := LinearLayer.linear_apply_components SPARSE_GROUP_SIZE
      ROW_END_MARKER exp L (List.replicate L.mat.nCols 0) hM (by simp)
    refine ⟨y, hret, hlen, fun i hi => ?_⟩
    rw [hcomp i hi, CompMatrix.dot_of_zero_input _ _ _ _
      (fun t ht => List.eq_of_mem_replicate ht)]
    simp only [neg_zero, hexp0]
    norm_num
  · intro bias
    simp [LinearLayer.apply, CompMatrix.mul, identity2, CompMatrix.rowLoop,
      CompMatrix.groupLoop, coeff, sigmoid, hexp0]
    norm_num

theorem LinearLayer.apply_zero_input_witness :
    (∃ y, LinearLayer.apply 4 (-1) (fun t : Rat => t * t + 1)
        ⟨{ weight := [1, 2, 3, 4, 5, 6, 7, 8], index := [1, -1, 0, -1], nRows := 2, nCols := 8 },
          [5, 7]⟩ (List.replicate 8 0) = .ok y ∧
      y.length = 2 ∧ ∀ i, i < 2 → y.getD i 0 = 1 / 2) ∧
    LinearLayer.apply 2 (-1) (fun t : Rat => t * t + 1) ⟨identity2 Rat, [5, 7]⟩ [0, 0]
      = .ok [1 / 2, 1 / 2] :=
  ⟨(LinearLayer.apply_zero_input 4 (-1) (fun t : Rat => t * t + 1) (by norm_num)).1
      ⟨{ weight := [1, 2, 3, 4, 5, 6, 7, 8], index := [1, -1, 0, -1], nRows := 2, nCols := 8 },
        [5, 7]⟩ (by decide),
    (LinearLayer.apply_zero_input 2 (-1) (fun t : Rat => t * t + 1) (by norm_num)).2 [5, 7]⟩

/-! ## Compressed matrix: safety of the loop -/

/-- The loop returns the vector it was given with its recorded assignments applied, and
fails exactly when the recording does. -/
theorem CompMatrix.rowLoop_eq_applyWrites {α : Type} [CommRing α] (G : Nat) (E : Int)
    (nRows : Nat) (weight x : List α) :
    ∀ (idx : List Int) (weightPos row : Nat) (sum : α) (y : List α),
      CompMatrix.rowLoop G E nRows weight x idx weightPos row sum y =
        match CompMatrix.rowLoopWrites G E nRows weight x idx weightPos row sum with
        | .ok ws => .ok (applyWrites ws y)
        | .error e => .error e := by
  intro idx
  induction idx with
  | nil =>
    intro weightPos row sum y
    simp only [CompMatrix.rowLoop, CompMatrix.rowLoopWrites]
    by_cases hrow : row < nRows
    · simp only [if_pos hrow]
    · simp only [if_neg hrow, applyWrites, List.foldl_nil]
  | cons b rest ih =>
    intro weightPos row sum y
    simp only [CompMatrix.rowLoop, CompMatrix.rowLoopWrites]
    by_cases hrow : row < nRows
    · simp only [if_pos hrow]
      by_cases hb : b = E
      · simp only [ne_eq, hb, not_true_eq_false, if_false]
        rw [ih]
        cases CompMatrix.rowLoopWrites G E nRows weight x rest weightPos (row + 1) 0 with
        | error e => rfl
        | ok ws => simp only [applyWrites, List.foldl_cons]
      · simp only [ne_eq, hb, not_false_eq_true, if_true]
        split
        · rfl
        · split
          · rfl
          · split
            · exact ih _ _ _ _
            · rfl
    · simp only [if_neg hrow, applyWrites, List.foldl_nil]

/-- From a readable state the loop assigns the rows `row, row + 1, …, nRows − 1`, each
once and in this order. -/
theorem CompMatrix.rowLoopWrites_rows {α : Type} [CommRing α] (G : Nat) (E : Int)
    (nRows : Nat) (weight x : List α) :
    ∀ (idx : List Int) (weightPos row : Nat) (sum : α),
      CompMatrix.Readable G E nRows weight.length x.length idx weightPos row →
      ∃ ws, CompMatrix.rowLoopWrites G E nRows weight x idx weightPos row sum = .ok ws ∧
        ws.map Prod.fst = List.range' row (nRows - row) := by
  intro idx
  induction idx with
  | nil =>
    intro weightPos row sum hR
    have hrow : ¬ row < nRows := hR
    refine ⟨[], by simp [CompMatrix.rowLoopWrites, hrow], ?_⟩
    have h0 : nRows - row = 0 := by omega
    rw [h0]
    rfl
  | cons b rest ih =>
    intro weightPos row sum hR
    by_cases hrow : row < nRows
    · have hR' := hR hrow
      by_cases hb : b = E
      · rw [if_neg (not_not.mpr hb)] at hR'
        obtain ⟨ws, hws, hrows⟩ := ih weightPos (row + 1) 0 hR'
        refine ⟨(row, sum) :: ws, ?_, ?_⟩
        · simp only [CompMatrix.rowLoopWrites, if_pos hrow, ne_eq, hb, not_true_eq_false,
            if_false, hws]
        · have hn : nRows - row = (nRows - (row + 1)) + 1 := by omega
          rw [List.map_cons, hrows, hn, List.range'_succ]
      · rw [if_pos hb] at hR'
        obtain ⟨hb0, hbx, hbw, hrest⟩ := hR'
        obtain ⟨bn, rfl⟩ := Int.eq_ofNat_of_zero_le hb0
        have hcol : ((G : Int) * (bn : Int)) = ((G * bn : Nat) : Int) := by push_cast; rfl
        have hx : G * bn + G ≤ x.length := by exact_mod_cast hbx
        have hg := CompMatrix.groupLoop_eq weight x (G * bn) G 0 weightPos sum hbw (by omega)
        obtain ⟨ws, hws, hrows⟩ := ih (weightPos + G) row
          (sum + ∑ k in Finset.range G,
            weight.getD (weightPos + k) 0 * x.getD (G * bn + 0 + k) 0) hrest
        refine ⟨ws, ?_, hrows⟩
        unfold CompMatrix.rowLoopWrites
        rw [if_pos hrow, if_pos hb]
        simp only []
        rw [if_neg (not_not.mpr hbx), if_neg (not_not.mpr hbw), hcol, hg]
        exact hws
    · refine ⟨[], by simp [CompMatrix.rowLoopWrites, hrow], ?_⟩
      have h0 : nRows - row = 0 := by omega
      rw [h0]
      rfl

/-- Readability only concerns the entries the loop reaches: it is kept when entries are
appended to the stream. -/
theorem CompMatrix.readable_append (G : Nat) (E : Int) (nRows wlen xlen : Nat)
    (extra : List Int) :
    ∀ (idx : List Int) (weightPos row : Nat),
      CompMatrix.Readable G E nRows wlen xlen idx weightPos row →
      CompMatrix.Readable G E nRows wlen xlen (idx ++ extra) weightPos row := by
  intro idx
  induction idx with
  | nil =>
    intro weightPos row hR
    have hrow : ¬ row < nRows := hR
    cases extra with
    | nil => exact hR
    | cons c cs =>
      simp only [List.nil_append, CompMatrix.Readable]
      intro h
      exact absurd h hrow
  | cons b rest ih =>
    intro weightPos row hR
    simp only [List.cons_append, CompMatrix.Readable] at hR ⊢
    intro hrow
    have hR' := hR hrow
    by_cases hb : b = E
    · rw [if_neg (not_not.mpr hb)] at hR' ⊢
      exact ih _ _ hR'
    · rw [if_pos hb] at hR' ⊢
      exact ⟨hR'.1, hR'.2.1, hR'.2.2.1, ih _ _ hR'.2.2.2⟩

/-- C19, as the code behaves.  Let the index stream be `core ++ rest`, where `core` holds
at least `nRows` row ends, every block index `b` in `core` has `0 ≤ b` and
`SPARSE_GROUP_SIZE*b + SPARSE_GROUP_SIZE ≤ nCols`, and the weight array holds at least
`SPARSE_GROUP_SIZE` values per block index of `core`; let `x` have length `nCols`.  Then
the loop of `CompMatrix::operator*` terminates without a failed assertion or a read out of
range and returns a vector of length `nRows`; it assigns the rows `0, …, nRows − 1` each
exactly once, in this order; and nothing after `core` is read: the result is the same
whatever follows `core`. -/
theorem CompMatrix.mul_safe_on_valid_stream {α : Type} [CommRing α] (SPARSE_GROUP_SIZE : Nat)
    (ROW_END_MARKER : Int) (M : CompMatrix α) (x : List α) (core rest : List Int)
    (hidx : M.index = core ++ rest) (hcount : M.nRows ≤ core.count ROW_END_MARKER)
    (hblk : ∀ b ∈ core, b ≠ ROW_END_MARKER →
      0 ≤ b ∧ (SPARSE_GROUP_SIZE : Int) * b + SPARSE_GROUP_SIZE ≤ M.nCols)
    (hw : SPARSE_GROUP_SIZE * (core.filter (· ≠ ROW_END_MARKER)).length ≤ M.weight.length)
    (hx : x.length = M.nCols) :
    ∃ y ws, M.mul SPARSE_GROUP_SIZE ROW_END_MARKER x = .ok y ∧ y.length = M.nRows ∧
      CompMatrix.rowLoopWrites SPARSE_GROUP_SIZE ROW_END_MARKER M.nRows M.weight x
        M.index 0 0 0 = .ok ws ∧
      ws.map Prod.fst = List.range M.nRows ∧
      y = applyWrites ws (List.replicate M.nRows 0) ∧
      ∀ rest' : List Int,
        CompMatrix.mul SPARSE_GROUP_SIZE ROW_END_MARKER { M with index := core ++ rest' } x
          = .ok y := by
  have hRc : CompMatrix.Readable SPARSE_GROUP_SIZE ROW_END_MARKER M.nRows M.weight.length
      x.length core 0 0 := by
    rw [hx]
    exact CompMatrix.readable_of_counts SPARSE_GROUP_SIZE ROW_END_MARKER M.nRows
      M.weight.length M.nCols core 0 0 hblk (by omega) (by omega)
  obtain ⟨y, hy, hlen, _⟩ := CompMatrix.rowLoop_spec SPARSE_GROUP_SIZE ROW_END_MARKER M.nRows
    M.weight x core 0 0 0 (List.replicate M.nRows 0) hRc (by simp)
  have happ : ∀ rest' : List Int,
      CompMatrix.rowLoop SPARSE_GROUP_SIZE ROW_END_MARKER M.nRows M.weight x (core ++ rest')
        0 0 0 (List.replicate M.nRows 0) = .ok y :=
    fun rest' => CompMatrix.rowLoop_append SPARSE_GROUP_SIZE ROW_END_MARKER M.nRows M.weight x
      rest' core 0 0 0 _ y hy
  obtain ⟨ws, hws, hrows⟩ := CompMatrix.rowLoopWrites_rows SPARSE_GROUP_SIZE ROW_END_MARKER
    M.nRows M.weight x (core ++ rest) 0 0 0
    (CompMatrix.readable_append SPARSE_GROUP_SIZE ROW_END_MARKER M.nRows M.weight.length
      x.length rest core 0 0 hRc)
  have hlink := CompMatrix.rowLoop_eq_applyWrites SPARSE_GROUP_SIZE ROW_END_MARKER M.nRows
    M.weight x (core ++ rest) 0 0 0 (List.replicate M.nRows 0)
  rw [happ rest, hws] at hlink
  refine ⟨y, ws, ?_, hlen, ?_, ?_, ?_, fun rest' => ?_⟩
  · unfold CompMatrix.mul
    rw [if_pos hx.symm, hidx]
    exact happ rest
  · rw [hidx]
    exact hws
  · rw [hrows, Nat.sub_zero, List.range_eq_range']
  · exact Except.ok.inj hlink
  · unfold CompMatrix.mul
    simp only [if_pos hx.symm]
    exact happ rest'

theorem CompMatrix.mul_safe_on_valid_stream_witness :
    ∃ y ws, CompMatrix.mul 4 (-1) { exampleMatrix with index := [1, -1, 0, -1] ++ [99, -1] }
        [1, 1, 1, 1, 2, 2, 2, 2] = .ok y ∧ y.length = 2 ∧
      CompMatrix.rowLoopWrites 4 (-1) 2 exampleMatrix.weight [1, 1, 1, 1, 2, 2, 2, 2]
        ([1, -1, 0, -1] ++ [99, -1]) 0 0 0 = .ok ws ∧
      ws.map Prod.fst = [0, 1] := by
  obtain ⟨y, ws, h1, h2, h3, h4, _, _⟩ := CompMatrix.mul_safe_on_valid_stream 4 (-1)
    { exampleMatrix with index := [1, -1, 0, -1] ++ [99, -1] } [1, 1, 1, 1, 2, 2, 2, 2]
    [1, -1, 0, -1] [99, -1] rfl (by decide) (by decide) (by decide) rfl
  exact ⟨y, ws, h1, h2, h3, h4⟩

/-- C19 fails as stated: the invariant of the claim puts no lower bound on a block index.
With group size 4 and marker −1, the stream `[−2, −1]` has one row end for one row, its
block index −2 has `4·(−2) + 4 ≤ nCols`, and the weight array holds 4 values; the loop
passes both assertions and then reads `x(−8)`, outside `x`. -/
theorem CompMatrix.mul_negative_block_out_of_range :
    negativeBlock.nRows ≤ negativeBlock.index.count (-1) ∧
    (∀ b ∈ negativeBlock.index, b ≠ -1 → (4 : Int) * b + 4 ≤ negativeBlock.nCols) ∧
    4 * (negativeBlock.index.filter (· ≠ -1)).length ≤ negativeBlock.weight.length ∧
    ([1, 1, 1, 1, 2, 2, 2, 2] : List Int).length = negativeBlock.nCols ∧
    negativeBlock.mul 4 (-1) [1, 1, 1, 1, 2, 2, 2, 2] = .error .bounds :=
  ⟨by decide, by decide, by decide, rfl, rfl⟩

end WaveRNN
